import Mathlib

/-!
# clip_share_server: clipboard file lists, URI decoding, directory expansion, configuration

A shallow embedding of `src/utils/utils.c` (Linux variant) and `src/conf_parse.c`.

* C strings live in a byte memory `Mem` (a list of byte values); a pointer is an index.
  Reading or writing outside the memory is the fault `Fault.oob`.
* `char` is the signed 8-bit type of the Linux/x86 ABI; a byte is kept as its unsigned value
  `0..255`, so a "negative" `char` is a byte `>= 128`.
* Loops whose termination is not structural carry a fuel argument; running out of fuel is the
  fault `Fault.fuel`, and the theorems show when it cannot (or must) happen.
* The operating system (clipboard helper, `stat`, `opendir`, `fopen`) is a parameter.
-/

namespace ClipShare

/-! ## Machine model -/

/-- Ways in which a run leaves defined behaviour. -/
inductive Fault where
  | oob     -- access outside the object the pointer was derived from
  | uninit  -- read of an object that was never written
  | fuel    -- the loop did not finish within the given number of iterations
  deriving DecidableEq, Repr

instance instDecidableEqExcept {ε α : Type} [DecidableEq ε] [DecidableEq α] :
    DecidableEq (Except ε α)
  | .ok a, .ok b => if h : a = b then isTrue (by rw [h]) else isFalse (fun e => h (by cases e; rfl))
  | .error a, .error b =>
    if h : a = b then isTrue (by rw [h]) else isFalse (fun e => h (by cases e; rfl))
  | .ok _, .error _ => isFalse (fun e => by cases e)
  | .error _, .ok _ => isFalse (fun e => by cases e)

/-- A byte memory; index `i` is the address `base + i`. -/
abbrev Mem := List Nat

/-- ASCII bytes of a literal. -/
def ascii (s : String) : List Nat := s.toList.map Char.toNat

/-- Models `*p` as an rvalue. -/
def load (m : Mem) (p : Nat) : Except Fault Nat :=
  match m[p]? with
  | some b => .ok b
  | none => .error .oob

/-- Models `*p = b`. -/
def store (m : Mem) (p : Nat) (b : Nat) : Except Fault Mem :=
  if p < m.length then .ok (m.set p b) else .error .oob

/-- The C string that starts at `p`: the bytes before the first NUL. A string without
terminator inside the memory cannot be read to its end. -/
def cstr (m : Mem) (p : Nat) : Except Fault (List Nat) :=
  if 0 ∈ m.drop p then .ok ((m.drop p).takeWhile (fun b => b != 0)) else .error .oob

/-- Models `strlen(p)`. -/
def strlen (m : Mem) (p : Nat) : Except Fault Nat :=
  match cstr m p with
  | .ok s => .ok s.length
  | .error e => .error e

def EXIT_SUCCESS : Int := 0

def EXIT_FAILURE : Int := 1

/-! ## `url_decode` and `hex2char` (utils.c 299-308, 375-412) -/

/-- Models `hex2char`: the value of a hexadecimal digit, `-1` for any other `char`. -/
def hex2char (h : Nat) : Int :=
  if 48 ≤ h ∧ h ≤ 57 then (h : Int) - 48
  else if 65 ≤ h ∧ h ≤ 70 then (h : Int) - 65 + 10
  else if 97 ≤ h ∧ h ≤ 102 then (h : Int) - 97 + 10
  else -1

/-- Models `strncmp(lit, p, n) != 0` for a literal `lit` without NUL: compares byte by byte and stops
at the first difference, at the end of the literal, or after `n` bytes. -/
def strncmp_ne : List Nat → Mem → Nat → Nat → Except Fault Bool
  | _, _, _, 0 => .ok false
  | [], m, p, _ + 1 =>
    match load m p with
    | .error e => .error e
    | .ok b => .ok (b != 0)
  | a :: lit, m, p, n + 1 =>
    match load m p with
    | .error e => .error e
    | .ok b => if a != b then .ok true else strncmp_ne lit m (p + 1) n

/-- Search of `strstr` over the bytes from the current position on: offset of the first
occurrence of `needle` that starts before the terminator. -/
def strstr_from (needle : List Nat) : List Nat → Nat → Option Nat
  | [], _ => none
  | b :: rest, p =>
    if needle.isPrefixOf (b :: rest) then some p
    else if b = 0 then none
    else strstr_from needle rest (p + 1)

/-- Models `strstr(p, needle)`; `none` is `NULL`. -/
def strstr (m : Mem) (p : Nat) (needle : List Nat) : Option Nat :=
  strstr_from needle (m.drop p) p

/-- The byte stored by `c = c1 << 4; ...; c |= c1;` for two digit values. -/
def hex_pair (c1 c2 : Int) : Nat :=
  ((c1.toNat <<< 4) % 256) ||| c2.toNat

/-- The body of the `do` loop up to the assignment `*ptr1 = c`: the byte `c` together with the
position `ptr2` has reached; `none` is `return EXIT_FAILURE; // invalid url`. -/
def url_decode_unit (m : Mem) (ptr2 : Nat) : Except Fault (Option (Nat × Nat)) :=
  match load m ptr2 with
  | .error e => .error e
  | .ok b =>
    if b = 37 then
      match load m (ptr2 + 1) with
      | .error e => .error e
      | .ok tmp1 =>
        if hex2char tmp1 < 0 then .ok none
        else
          match load m (ptr2 + 2) with
          | .error e => .error e
          | .ok tmp2 =>
            if hex2char tmp2 < 0 then .ok none
            else .ok (some (hex_pair (hex2char tmp1) (hex2char tmp2), ptr2 + 2))
    else .ok (some (b, ptr2))

/-- The `do { ... } while (*ptr2);` loop followed by `*ptr1 = 0; return EXIT_SUCCESS;`. -/
def url_decode_loop : Nat → Mem → Nat → Nat → Except Fault (Int × Mem)
  | 0, _, _, _ => .error .fuel
  | fuel + 1, m, ptr1, ptr2 =>
    match url_decode_unit m ptr2 with
    | .error e => .error e
    | .ok none => .ok (EXIT_FAILURE, m)
    | .ok (some (c, q)) =>
      match store m ptr1 c with
      | .error e => .error e
      | .ok m1 =>
        match load m1 (q + 1) with
        | .error e => .error e
        | .ok b =>
          if b = 0 then
            match store m1 (ptr1 + 1) 0 with
            | .error e => .error e
            | .ok m2 => .ok (EXIT_SUCCESS, m2)
          else url_decode_loop fuel m1 (ptr1 + 1) (q + 1)

/-- Models `url_decode(str)`: status and memory afterwards. Every pass of the loop moves `ptr2`
forward, so `m.length + 1` passes are more than the memory allows. -/
def url_decode (m : Mem) (str : Nat) : Except Fault (Int × Mem) :=
  match strncmp_ne (ascii "file://") m str 7 with
  | .error e => .error e
  | .ok true => .ok (EXIT_FAILURE, m)
  | .ok false =>
    match strstr m str (ascii "://") with
    | none => .ok (EXIT_FAILURE, m)
    | some q => url_decode_loop (m.length + 1) m str (q + 3)


/-- Result of a run on a memory that sits behind the untouched bytes `A`. -/
def behind (A : List Nat) : Except Fault (Int × Mem) → Except Fault (Int × Mem)
  | .ok (s, m) => .ok (s, A ++ m)
  | .error e => .error e

/-! ### Reference semantics of percent-encoding, written from the specification -/

/-- A hexadecimal digit: `0-9`, `A-F` or `a-f`. -/
def isHexDigit (b : Nat) : Bool :=
  (48 ≤ b && b ≤ 57) || (65 ≤ b && b ≤ 70) || (97 ≤ b && b ≤ 102)

/-- Left-to-right scan of the text after `file://`: every `%` met outside an earlier escape
is followed by two hexadecimal digits. -/
def escapes_ok : List Nat → Bool
  | [] => true
  | c :: rest =>
    if c = 37 then
      match rest with
      | a :: b :: rest2 => isHexDigit a && isHexDigit b && escapes_ok rest2
      | _ => false
    else escapes_ok rest

/-- The bytes denoted by a percent-encoded text; `none` when an escape is malformed. -/
def percent_decode : List Nat → Option (List Nat)
  | [] => some []
  | c :: rest =>
    if c = 37 then
      match rest with
      | a :: b :: rest2 =>
        if hex2char a < 0 ∨ hex2char b < 0 then none
        else (percent_decode rest2).map (fun d => hex_pair (hex2char a) (hex2char b) :: d)
      | _ => none
    else (percent_decode rest).map (fun d => c :: d)

/-- How one byte of a path is written in a URI: literally, or as `%` and two hexadecimal
digits, each in upper or lower case. -/
inductive Enc where
  | lit
  | esc (upper1 upper2 : Bool)
  deriving DecidableEq, Repr

/-- The hexadecimal digit for a value below 16. -/
def hex_digit (upper : Bool) (v : Nat) : Nat :=
  if v < 10 then 48 + v else if upper then 55 + v else 87 + v

def encode_byte (b : Nat) : Enc → List Nat
  | .lit => [b]
  | .esc u1 u2 => [37, hex_digit u1 (b / 16), hex_digit u2 (b % 16)]

/-- The encoding of a path, given for every byte the way it is written. -/
def encode : List (Nat × Enc) → List Nat
  | [] => []
  | (b, e) :: rest => encode_byte b e ++ encode rest

/-- A byte may be written literally only when it is not `%`; path bytes are non-NUL bytes. -/
def encodable (l : List (Nat × Enc)) : Prop :=
  ∀ x ∈ l, x.1 ≠ 0 ∧ x.1 < 256 ∧ (x.2 = Enc.lit → x.1 ≠ 37)

instance (l : List (Nat × Enc)) : Decidable (encodable l) := by
  unfold encodable; infer_instance

/-! ## Operating-system interface -/

/-- Modelled from the spec: `PATH_SEP` is declared in `utils.h`, which is not among the
sources; the Linux variant separates path components with `/`. -/
def PATH_SEP : Nat := 47

def RECURSE_DEPTH_MAX : Nat := 256

/-- The file type that `S_ISREG` / `S_ISDIR` read off `st_mode`. -/
inductive Kind where
  | reg
  | dir
  | other
  deriving DecidableEq, Repr

/-- The file system as the code observes it. `stat` and `lstat` answer `none` when the call
returns non-zero; `opendir` answers `none` for `NULL` and otherwise the `d_name` sequence
that successive `readdir` calls deliver. -/
structure FS where
  stat : List Nat → Option Kind
  lstat : List Nat → Option Kind
  opendir : List Nat → Option (List (List Nat))

/-- Modelled from the spec: the ordered list container of `list_utils.h` (not among the
sources), an ordered sequence of owned strings. -/
abbrev list2 := List (List Nat)

/-- Modelled from the spec: `append` of `list_utils.h` adds one owned string at the end. -/
def append (lst : list2) (s : List Nat) : list2 := lst ++ [s]

/-- Modelled from the spec: the selection-buffer transport `xclip_util(XCLIP_OUT, target,
&len, &buf)` of `xclip.h` (not among the sources): `query(targetName) -> (buffer, length) |
Failure`. `none` is a non-zero return value; the buffer has room for a terminator at index
`len`. -/
abbrev Xclip := List Nat → Option (List Nat)

/-! ## `recurse_dir` (utils.c 190-241) -/

/-- Models `!(strcmp(filename, ".") && strcmp(filename, ".."))`. -/
def is_dot (filename : List Nat) : Bool :=
  filename == ascii "." || filename == ascii ".."

/-- The `while ((dir = readdir(d)) != NULL)` loop over the entries still to come; `path` is
the directory name with its trailing separator and `recurse` the call
`recurse_dir(pathname, lst, depth + 1)`. -/
def recurse_dir_entries (fs : FS) (recurse : List Nat → list2 → Except Fault list2)
    (path : List Nat) : List (List Nat) → list2 → Except Fault list2
  | [], lst => .ok lst
  | filename :: more, lst =>
    if is_dot filename then recurse_dir_entries fs recurse path more lst
    else
      match fs.lstat (path ++ filename) with
      | some .dir =>
        match recurse (path ++ filename) lst with
        | .error e => .error e
        | .ok lst1 => recurse_dir_entries fs recurse path more lst1
      | some .reg => recurse_dir_entries fs recurse path more (append lst (path ++ filename))
      | _ => recurse_dir_entries fs recurse path more lst

/-- Models `recurse_dir(path, lst, depth)` with a bound on the nesting of calls. -/
def recurse_dir_fuel (fs : FS) : Nat → List Nat → list2 → Nat → Except Fault list2
  | 0, _, _, _ => .error .fuel
  | fuel + 1, path, lst, depth =>
    if depth > RECURSE_DEPTH_MAX then .ok lst
    else
      match fs.opendir path with
      | none => .ok lst
      | some names =>
        -- `path[p_len - 1]`
        match path.getLast? with
        | none => .error .oob
        | some last =>
          recurse_dir_entries fs (fun p l => recurse_dir_fuel fs fuel p l (depth + 1))
            (if last ≠ PATH_SEP then path ++ [PATH_SEP] else path) names lst

/-- Models `recurse_dir(path, lst, depth)`: a call at depth `d <= 256` makes calls at depth `d + 1`
only, and a call at depth `> 256` makes none, so the nesting never exceeds
`RECURSE_DEPTH_MAX + 2`. -/
def recurse_dir (fs : FS) (path : List Nat) (lst : list2) (depth : Nat) : Except Fault list2 :=
  recurse_dir_fuel fs (RECURSE_DEPTH_MAX + 2) path lst depth

/-! ## `get_copied_files_as_str`, `get_copied_files`, `get_copied_dirs_files`
(utils.c 310-373, 414-543) -/

/-- The bytes of a buffer before its first NUL. -/
def cstring (m : List Nat) : List Nat := m.takeWhile (fun b => b != 0)

/-- The tokens that repeated `strsep(&copy, "\n")` delivers for a string. -/
def strsep_tokens : List Nat → List (List Nat)
  | [] => [[]]
  | b :: rest =>
    if b = 10 then [] :: strsep_tokens rest
    else
      match strsep_tokens rest with
      | tok :: toks => (b :: tok) :: toks
      | [] => [[b]]

/-- Models `strchr(p, c)` for `c != 0`, searching the bytes from the current position on. -/
def strchr_from (c : Nat) : List Nat → Nat → Option Nat
  | [], _ => none
  | b :: rest, p =>
    if b = c then some p
    else if b = 0 then none
    else strchr_from c rest (p + 1)

def expected_target : List Nat := ascii "x-special/gnome-copied-files"

/-- Models `get_copied_files_as_str()`: the payload buffer with its first line cut off by a NUL, or
`none` for `NULL`. Both buffers are taken as handed back with a terminator after `len`
bytes (the code writes `fnames[fname_len] = 0` itself). -/
def get_copied_files_as_str (xclip : Xclip) : Option Mem :=
  match xclip (ascii "TARGETS") with
  | none => none
  | some targets =>
    if targets.length ≤ 0 then none
    else if ¬ (strsep_tokens (cstring targets)).any (fun token => token == expected_target) then none
    else
      match xclip expected_target with
      | none => none
      | some fnames0 =>
        if fnames0.length ≤ 0 then none
        else
          let fnames := fnames0 ++ [0]
          match strchr_from 10 fnames 0 with
          | none => none
          | some file_path =>
            let fnames1 := fnames.set file_path 0
            if cstring fnames1 ≠ ascii "copy" ∧ cstring fnames1 ≠ ascii "cut" then none
            else some fnames1

/-- The loop `for (ptr = file_path + 1; *ptr; ptr++) if (*ptr == '\n') { file_cnt++; *ptr = 0; }`
on the bytes from `ptr` on: the number of increments and the bytes afterwards. -/
def split_entries : List Nat → Except Fault (Nat × List Nat)
  | [] => .error .oob
  | b :: rest =>
    if b = 0 then .ok (0, b :: rest)
    else
      match split_entries rest with
      | .error e => .error e
      | .ok (cnt, rest1) => if b = 10 then .ok (cnt + 1, 0 :: rest1) else .ok (cnt, b :: rest1)

/-- The counting loop applied in place from position `p`. -/
def split_entries_at (m : Mem) (p : Nat) : Except Fault (Nat × Mem) :=
  match split_entries (m.drop p) with
  | .error e => .error e
  | .ok (cnt, rest) => .ok (cnt, m.take p ++ rest)

/-- The `for (i = 0; i < file_cnt; i++)` loop of `get_copied_files` with `n` passes left. -/
def get_copied_files_loop (fs : FS) : Nat → Mem → Nat → list2 → Except Fault list2
  | 0, _, _, lst => .ok lst
  | n + 1, m, fname, lst =>
    match strlen m fname with
    | .error e => .error e
    | .ok len =>
      match url_decode m fname with
      | .error e => .error e
      | .ok (status, m1) =>
        if status = EXIT_FAILURE then .ok lst
        else
          match cstr m1 fname with
          | .error e => .error e
          | .ok path =>
            match fs.stat path with
            | none => get_copied_files_loop fs n m1 (fname + (len + 1)) lst
            | some kind =>
              if kind ≠ .reg then get_copied_files_loop fs n m1 (fname + (len + 1)) lst
              else get_copied_files_loop fs n m1 (fname + (len + 1)) (append lst path)

/-- Models `get_copied_files()`; `none` is `NULL`. Allocation is taken to succeed. -/
def get_copied_files (xclip : Xclip) (fs : FS) : Except Fault (Option list2) :=
  match get_copied_files_as_str xclip with
  | none => .ok none
  | some fnames =>
    match strlen fnames 0 with
    | .error e => .error e
    | .ok file_path =>
      match split_entries_at fnames (file_path + 1) with
      | .error e => .error e
      | .ok (cnt, fnames1) =>
        match get_copied_files_loop fs (1 + cnt) fnames1 (file_path + 1) [] with
        | .error e => .error e
        | .ok lst => .ok (some lst)

/-- Modelled from the spec: `dir_files` of `utils.h` (not among the sources), a file list
plus the `path_len` hint. -/
structure dir_files where
  lst : Option list2
  path_len : Nat
  deriving DecidableEq, Repr

/-- Index of the last occurrence of `c`, scanning from index `i` with the best so far. -/
def strrchr_from (c : Nat) : List Nat → Nat → Option Nat → Option Nat
  | [], _, best => best
  | b :: rest, i, best => strrchr_from c rest (i + 1) (if b = c then some i else best)

/-- Models `strrchr(s, c) - s` for `c != 0`; `none` is `NULL`. -/
def strrchr (s : List Nat) (c : Nat) : Option Nat := strrchr_from c s 0 none

/-- The block `if (i == 0) { ... }`: the new value of `ret.path_len`. -/
def first_entry_path_len (i : Nat) (path : List Nat) (path_len : Nat) : Nat :=
  if i = 0 then
    match strrchr path PATH_SEP with
    | some sep => if sep > 0 then sep + 1 else path_len
    | none => path_len
  else path_len

/-- The `for` loop of `get_copied_dirs_files` at pass `i` with `n` passes left. -/
def get_copied_dirs_files_loop (fs : FS) :
    Nat → Nat → Mem → Nat → list2 → Nat → Except Fault (list2 × Nat)
  | 0, _, _, _, lst, path_len => .ok (lst, path_len)
  | n + 1, i, m, fname, lst, path_len =>
    match strlen m fname with
    | .error e => .error e
    | .ok len =>
      match url_decode m fname with
      | .error e => .error e
      | .ok (status, m1) =>
        if status = EXIT_FAILURE then .ok (lst, path_len)
        else
          match cstr m1 fname with
          | .error e => .error e
          | .ok path =>
            let path_len1 := first_entry_path_len i path path_len
            match fs.stat path with
            | none => get_copied_dirs_files_loop fs n (i + 1) m1 (fname + (len + 1)) lst path_len1
            | some kind =>
              if kind = .dir then
                match recurse_dir fs path lst 1 with
                | .error e => .error e
                | .ok lst1 =>
                  get_copied_dirs_files_loop fs n (i + 1) m1 (fname + (len + 1)) lst1 path_len1
              else if kind ≠ .reg then
                get_copied_dirs_files_loop fs n (i + 1) m1 (fname + (len + 1)) lst path_len1
              else
                get_copied_dirs_files_loop fs n (i + 1) m1 (fname + (len + 1)) (append lst path)
                  path_len1

/-- Models `get_copied_dirs_files()`. Allocation is taken to succeed. -/
def get_copied_dirs_files (xclip : Xclip) (fs : FS) : Except Fault dir_files :=
  match get_copied_files_as_str xclip with
  | none => .ok { lst := none, path_len := 0 }
  | some fnames =>
    match strlen fnames 0 with
    | .error e => .error e
    | .ok file_path =>
      match split_entries_at fnames (file_path + 1) with
      | .error e => .error e
      | .ok (cnt, fnames1) =>
        match get_copied_dirs_files_loop fs (1 + cnt) 0 fnames1 (file_path + 1) [] 0 with
        | .error e => .error e
        | .ok (lst, path_len) => .ok { lst := some lst, path_len := path_len }

/-! ### A concrete file system built from a directory tree -/

/-- The entries of a directory, in the order `readdir` delivers them. -/
inductive Forest where
  | nil
  | file (name : List Nat) (more : Forest)
  | dir (name : List Nat) (sub : Forest) (more : Forest)
  deriving DecidableEq, Repr

/-- The entry names of a directory. -/
def Forest.names : Forest → List (List Nat)
  | .nil => []
  | .file name more => name :: more.names
  | .dir name _ more => name :: more.names

/-- The entry called `name`: its kind and, for a directory, its entries. -/
def Forest.find (name : List Nat) : Forest → Option (Kind × Forest)
  | .nil => none
  | .file n more => if n = name then some (.reg, .nil) else more.find name
  | .dir n sub more => if n = name then some (.dir, sub) else more.find name

/-- The components of a path: the non-empty pieces between separators. -/
def components : List Nat → List (List Nat)
  | [] => []
  | b :: rest =>
    if b = PATH_SEP then components rest
    else
      match rest with
      | [] => [[b]]
      | c :: _ =>
        if c = PATH_SEP then [b] :: components rest
        else
          match components rest with
          | comp :: comps => (b :: comp) :: comps
          | [] => [[b]]

/-- Walk from a directory with entries `root` along the components. -/
def Forest.walk : List (List Nat) → Forest → Option (Kind × Forest)
  | [], root => some (.dir, root)
  | [name], root => root.find name
  | name :: names, root =>
    match root.find name with
    | some (.dir, sub) => Forest.walk names sub
    | _ => none

/-- Resolution of an absolute path in the tree whose root directory has entries `root`; the
empty path does not resolve, and a trailing separator demands a directory. -/
def Forest.resolve (root : Forest) (path : List Nat) : Option (Kind × Forest) :=
  if path = [] then none
  else
    match Forest.walk (components path) root with
    | some (.dir, sub) => some (.dir, sub)
    | some (kind, sub) => if path.getLast? = some PATH_SEP then none else some (kind, sub)
    | none => none

/-- The file system that holds exactly the tree `root` (no symbolic links, every directory
readable); `readdir` delivers `.` and `..` first. -/
def treeFS (root : Forest) : FS where
  stat := fun path => (root.resolve path).map Prod.fst
  lstat := fun path => (root.resolve path).map Prod.fst
  opendir := fun path =>
    match root.resolve path with
    | some (.dir, sub) => some (ascii "." :: ascii ".." :: sub.names)
    | _ => none

/-- A clipboard that offers the file-list target with the given payload. -/
def clipboard_with (payload : List Nat) : Xclip := fun target =>
  if target = ascii "TARGETS" then some (ascii "TIMESTAMP\nTARGETS\nx-special/gnome-copied-files\ntext/uri-list")
  else if target = expected_target then some payload
  else none

/-! ### Directory trees as seen through the file-system interface -/

/-- A directory name with exactly one separator at its end, as `recurse_dir` forms it. -/
def with_sep (path : List Nat) : List Nat :=
  if path.getLast? = some PATH_SEP then path else path ++ [PATH_SEP]

/-- What `opendir` delivers for `path`, without the entries `.` and `..`. -/
def listing (fs : FS) (path : List Nat) : Option (List (List Nat)) :=
  (fs.opendir path).map (fun names => names.filter (fun name => !is_dot name))

/-- The directory whose name with separator is `pre` holds exactly the entries `F`:
regular files and directories, every directory readable with exactly the entries of its
subtree. -/
def holds_entries (fs : FS) (pre : List Nat) : Forest → Bool
  | .nil => true
  | .file name more =>
    !is_dot name && decide (fs.lstat (pre ++ name) = some .reg) && holds_entries fs pre more
  | .dir name sub more =>
    !is_dot name && decide (fs.lstat (pre ++ name) = some .dir)
      && decide (listing fs (pre ++ name) = some sub.names)
      && holds_entries fs (with_sep (pre ++ name)) sub
      && holds_entries fs pre more

/-- The directory `path` is the root of the tree with entries `F`. -/
def holds_dir (fs : FS) (path : List Nat) (F : Forest) : Bool :=
  decide (path ≠ []) && decide (listing fs path = some F.names) && holds_entries fs (with_sep path) F

/-- The regular files that lie in directories visited with a depth counter of at most
`RECURSE_DEPTH_MAX`, in visiting order: `F` are the entries of a directory visited at
counter `d`, and each subdirectory is visited at its parent's counter plus one. -/
def visible_files (pre : List Nat) : Forest → Nat → list2
  | .nil, _ => []
  | .file name more, d => (pre ++ name) :: visible_files pre more d
  | .dir name sub more, d =>
    (if d + 1 > RECURSE_DEPTH_MAX then [] else visible_files (with_sep (pre ++ name)) sub (d + 1))
      ++ visible_files pre more d

/-- Example tree: `/tmp` holds `a.txt` and `sub`, `sub` holds `x.txt` and `y`, `y` holds
`z.txt`. -/
def tmp_tree : Forest :=
  .dir (ascii "tmp")
    (.file (ascii "a.txt")
      (.dir (ascii "sub")
        (.file (ascii "x.txt") (.dir (ascii "y") (.file (ascii "z.txt") .nil) .nil))
        .nil))
    .nil

/-- The entries of `/tmp/sub` in `tmp_tree`. -/
def sub_tree : Forest :=
  .file (ascii "x.txt") (.dir (ascii "y") (.file (ascii "z.txt") .nil) .nil)

/-! ## `get_image` (utils.c 275-297) -/

/-- What a producer call leaves behind: its return value and the contents of `*len_ptr`
and `*buf_ptr` afterwards (`none` for a `NULL` buffer). A producer returns non-zero on
failure (`screenshot.h`: "returns -1 if an error occured"). -/
structure Produced where
  ret : Int
  len : Nat
  buf : Option (List Nat)
  deriving DecidableEq, Repr

/-- Outcome of `get_image`: return value, `*len_ptr`, `*buf_ptr` (the pointer value is not
meaningful after a failure, where the buffer has been freed), and the number of calls made
to `screenshot_util`. -/
structure ImageResult where
  ret : Int
  len : Nat
  buf : Option (List Nat)
  screenshot_calls : Nat
  deriving DecidableEq, Repr

/-- Models `get_image(buf_ptr, len_ptr)`, Linux variant. `xclip` is what
`xclip_util(XCLIP_OUT, "image/png", len_ptr, buf_ptr)` produces; `screenshot` is what
`screenshot_util(len_ptr, buf_ptr)` produces when entered with `*len_ptr = 0` and
`*buf_ptr = NULL`. The operator `||` evaluates the length test only after a zero return. -/
def get_image (xclip : Produced) (screenshot : Produced) : ImageResult :=
  if xclip.ret ≠ 0 ∨ xclip.len = 0 then
    if screenshot.ret ≠ 0 ∨ screenshot.len = 0 then
      { ret := EXIT_FAILURE, len := 0, buf := screenshot.buf, screenshot_calls := 1 }
    else
      { ret := EXIT_SUCCESS, len := screenshot.len, buf := screenshot.buf, screenshot_calls := 1 }
  else
    { ret := EXIT_SUCCESS, len := xclip.len, buf := xclip.buf, screenshot_calls := 0 }

/-! ## `conf_parse.c` -/

/-- Models `0 < c && c <= ' '` for a `char` `c` (a byte of 128 or more is negative). -/
def is_blank (b : Nat) : Bool := 0 < b && b ≤ 32

/-- First loop of `trim`, `while (0 < *ptr && *ptr <= ' ') ptr++;`, on the bytes from `ptr`
on: the position where it stops. -/
def trim_skip : List Nat → Nat → Except Fault Nat
  | [], _ => .error .oob
  | b :: rest, ptr => if is_blank b then trim_skip rest (ptr + 1) else .ok ptr

/-- Second loop of `trim`, `while (*ptr) { *p1 = *ptr; p1++; ptr++; }`: memory and `p1`
afterwards. -/
def trim_copy : Nat → Mem → Nat → Nat → Except Fault (Mem × Nat)
  | 0, _, _, _ => .error .fuel
  | fuel + 1, m, p1, ptr =>
    match load m ptr with
    | .error e => .error e
    | .ok b =>
      if b = 0 then .ok (m, p1)
      else
        match store m p1 b with
        | .error e => .error e
        | .ok m1 => trim_copy fuel m1 (p1 + 1) (ptr + 1)

/-- Third loop of `trim`, `while (0 < *p1 && *p1 <= ' ') { *p1 = 0; p1--; }`, entered with
`p1` inside the array; stepping below the first element leaves the array. -/
def trim_back : Mem → Nat → Except Fault Mem
  | m, 0 =>
    match load m 0 with
    | .error e => .error e
    | .ok b => if is_blank b then .error .oob else .ok m
  | m, p1 + 1 =>
    match load m (p1 + 1) with
    | .error e => .error e
    | .ok b =>
      if is_blank b then
        match store m (p1 + 1) 0 with
        | .error e => .error e
        | .ok m1 => trim_back m1 p1
      else .ok m

/-- Models `trim(string)` on the array that holds the string, `string` being its first element.
After `*p1 = 0; p1--;` the pointer is below the array when nothing was copied. -/
def trim (m : Mem) : Except Fault Mem :=
  match trim_skip m 0 with
  | .error e => .error e
  | .ok ptr =>
    match trim_copy (m.length + 1) m 0 ptr with
    | .error e => .error e
    | .ok (m1, p1) =>
      match store m1 p1 0 with
      | .error e => .error e
      | .ok m2 =>
        match p1 with
        | 0 => .error .oob
        | q + 1 => trim_back m2 q

/-- C library `isspace` in the "C" locale. -/
def isspace (b : Nat) : Bool := b = 32 || (9 ≤ b && b ≤ 13)

def is_digit (b : Nat) : Bool := 48 ≤ b && b ≤ 57

def LONG_MAX : Int := 2 ^ 63 - 1

def LONG_MIN : Int := -(2 ^ 63)

/-- C library `strtol(s, NULL, 10)` on a string: optional white space, optional sign, the
longest run of decimal digits (value 0 when there is none), clamped to the range of `long`. -/
def strtol (s : List Nat) : Int :=
  let s1 := s.dropWhile isspace
  let s2 := if s1.head? = some 45 ∨ s1.head? = some 43 then s1.drop 1 else s1
  let v : Int := ((s2.takeWhile is_digit).foldl (fun acc d => 10 * acc + (d - 48)) 0 : Nat)
  let r := if s1.head? = some 45 then -v else v
  if r > LONG_MAX then LONG_MAX else if r < LONG_MIN then LONG_MIN else r

/-- C library `sscanf(s, "%255s", key)`: the first white-space delimited token, at most
`width` bytes; `none` when there is no token and `key` is left unwritten. -/
def sscanf_s (width : Nat) (s : List Nat) : Option (List Nat) :=
  let tok := ((s.dropWhile isspace).takeWhile (fun b => !isspace b)).take width
  if tok = [] then none else some tok

/-- Result of `fscanf(f, "%N[^\n]%*c", buf)`. -/
inductive Scanned where
  | eof                                            -- returns `EOF`
  | nomatch                                        -- returns 0: nothing stored, nothing consumed
  | line (bytes : List Nat) (rest : List Nat)      -- returns 1: bytes stored, stream afterwards
  deriving DecidableEq, Repr

/-- C library `fscanf(f, "%N[^\n]%*c", buf)` on a stream with `input` left to read: `%N[^\n]`
needs at least one byte other than a newline and takes at most `width`; `%*c` then skips one
byte if there is one. -/
def fscanf_line (width : Nat) (input : List Nat) : Scanned :=
  match input with
  | [] => .eof
  | b :: _ =>
    if b = 10 then .nomatch
    else
      let bytes := (input.takeWhile (fun c => c != 10)).take width
      .line bytes ((input.drop bytes.length).drop 1)

/-- A file that `fopen` can open: whether `fstat` reports a regular file, and its bytes. -/
structure File where
  regular : Bool
  content : List Nat
  deriving DecidableEq, Repr

/-- Models `fopen(name, "r")` / `fopen(name, "rb")`; `none` is `NULL`. -/
abbrev Files := List Nat → Option File

/-- Modelled from the spec: `config` of `config.h` (not among the sources): three ports
(0 is unset), three owned buffers and the allow-list, each possibly absent. -/
structure config where
  app_port : Nat
  app_port_secure : Nat
  web_port : Nat
  priv_key : Option (List Nat)
  server_cert : Option (List Nat)
  ca_cert : Option (List Nat)
  allowed_clients : Option list2
  deriving DecidableEq, Repr

/-- Where the loop in `get_client_list` goes after one `fscanf`: the stream and the contents
of `client` (as a string; `none` while unwritten). -/
def after_scan (input : List Nat) (buf : Option (List Nat)) : Scanned → List Nat × Option (List Nat)
  | .eof => (input, buf)
  | .nomatch => (input, buf)
  | .line bytes rest => (rest, some (cstring bytes))

/-- The loop `while (fscanf(f, "%511[^\n]%*c", client) != EOF) { ... }` of `get_client_list`. -/
def get_client_list_loop : Nat → List Nat → Option (List Nat) → list2 → Except Fault list2
  | 0, _, _, _ => .error .fuel
  | fuel + 1, input, client, lst =>
    match fscanf_line 511 input with
    | .eof => .ok lst
    | scanned =>
      match after_scan input client scanned with
      | (_, none) => .error .uninit
      | (input1, some text) =>
        match trim (text ++ [0]) with
        | .error e => .error e
        | .ok m =>
          if (cstring m).length < 1 then get_client_list_loop fuel input1 (some (cstring m)) lst
          else if (cstring m).head? = some 35 then
            get_client_list_loop fuel input1 (some (cstring m)) lst
          else get_client_list_loop fuel input1 (some (cstring m)) (append lst (cstring m))

/-- Models `get_client_list(filename)` with a bound on the number of loop passes; `none` is `NULL`. -/
def get_client_list (fuel : Nat) (files : Files) (filename : List Nat) :
    Except Fault (Option list2) :=
  match files filename with
  | none => .ok none
  | some f =>
    match get_client_list_loop fuel f.content none [] with
    | .error e => .error e
    | .ok lst => .ok (some lst)

/-- Models `get_file_size(fp)`. -/
def get_file_size (f : File) : Int :=
  if f.regular then (f.content.length : Int) else -1

/-- Models `load_file(f)`; allocation and `fread` are taken to succeed. -/
def load_file (f : File) : Option (List Nat) :=
  if get_file_size f ≤ 0 ∨ 65536 < get_file_size f then none else some f.content

/-- Models `parse_line(line, cfg)` on the string held in `line`: the string held there afterwards
and the record. `key` is read by the first `strcmp`, after `trim(value)`. -/
def parse_line (fuel : Nat) (files : Files) (line : List Nat) (cfg : config) :
    Except Fault (List Nat × config) :=
  match strchr_from 61 (line ++ [0]) 0 with
  | none => .ok (line, cfg)
  | some eq =>
    match trim (line.drop (eq + 1) ++ [0]) with
    | .error e => .error e
    | .ok vm =>
      match sscanf_s 255 (line.take eq) with
      | none => .error .uninit
      | some key =>
        if key = ascii "app_port" then
          if 0 < strtol (cstring vm) ∧ strtol (cstring vm) < 65536 then
            .ok (line.take eq, { cfg with app_port := (strtol (cstring vm)).toNat % 65536 })
          else .ok (line.take eq, cfg)
        else if key = ascii "app_port_secure" then
          if 0 < strtol (cstring vm) ∧ strtol (cstring vm) < 65536 then
            .ok (line.take eq, { cfg with app_port_secure := (strtol (cstring vm)).toNat % 65536 })
          else .ok (line.take eq, cfg)
        else if key = ascii "web_port" then
          if 0 < strtol (cstring vm) ∧ strtol (cstring vm) < 65536 then
            .ok (line.take eq, { cfg with web_port := (strtol (cstring vm)).toNat % 65536 })
          else .ok (line.take eq, cfg)
        else if key = ascii "server_key" then
          match files (cstring vm) with
          | none => .ok (line.take eq, cfg)
          | some f => .ok (line.take eq, { cfg with priv_key := load_file f })
        else if key = ascii "server_cert" then
          match files (cstring vm) with
          | none => .ok (line.take eq, cfg)
          | some f => .ok (line.take eq, { cfg with server_cert := load_file f })
        else if key = ascii "ca_cert" then
          match files (cstring vm) with
          | none => .ok (line.take eq, cfg)
          | some f => .ok (line.take eq, { cfg with ca_cert := load_file f })
        else if key = ascii "allowed_clients" then
          match get_client_list fuel files (cstring vm) with
          | .error e => .error e
          | .ok none => .ok (line.take eq, cfg)
          | .ok (some client_list) =>
            .ok (line.take eq, { cfg with allowed_clients := some client_list })
        else .ok (line.take eq, cfg)

/-- The record `parse_conf` starts from. -/
def config_init : config :=
  { app_port := 0, app_port_secure := 0, web_port := 0, priv_key := none, server_cert := none,
    ca_cert := none, allowed_clients := none }

/-- The loop `while (fscanf(f, "%2047[^\n]%*c", line) != EOF) parse_line(line, &cfg);`;
`client_fuel` bounds the loop of `get_client_list` inside `parse_line`. -/
def parse_conf_loop (files : Files) (client_fuel : Nat) :
    Nat → List Nat → Option (List Nat) → config → Except Fault config
  | 0, _, _, _ => .error .fuel
  | fuel + 1, input, line, cfg =>
    match fscanf_line 2047 input with
    | .eof => .ok cfg
    | scanned =>
      match after_scan input line scanned with
      | (_, none) => .error .uninit
      | (input1, some text) =>
        match parse_line client_fuel files text cfg with
        | .error e => .error e
        | .ok (text1, cfg1) => parse_conf_loop files client_fuel fuel input1 (some text1) cfg1

/-- Models `parse_conf(conf_file)` with a bound on the number of loop passes, here and in
`get_client_list`. -/
def parse_conf (fuel client_fuel : Nat) (files : Files) (conf_file : List Nat) :
    Except Fault config :=
  match files conf_file with
  | none => .ok config_init
  | some f => parse_conf_loop files client_fuel fuel f.content none config_init

/-- A directory of named text files. -/
def files_of (l : List (String × String)) : Files := fun name =>
  match l.find? (fun x => ascii x.1 = name) with
  | none => none
  | some x => some { regular := true, content := ascii x.2 }

/-- The allow-list file of the specification's example: `alice`, an empty line,
`# comment`, `bob`. -/
def allow_example : Files := files_of [("allow", "alice\n\n# comment\nbob\n")]

/-- A configuration file with an empty line between two port settings. -/
def conf_blank : Files := files_of [("conf", "app_port=4337\n\nweb_port=4339\n")]

/-- The same configuration file without the empty line. -/
def conf_dense : Files := files_of [("conf", "app_port=4337\nweb_port=4339\n")]

/-! ### Port settings, written from the specification -/

/-- The three port keys. -/
inductive PortKey where
  | app_port
  | app_port_secure
  | web_port
  deriving DecidableEq, Repr

def PortKey.name : PortKey → List Nat
  | .app_port => ascii "app_port"
  | .app_port_secure => ascii "app_port_secure"
  | .web_port => ascii "web_port"

/-- The record with the field of the key set to `n` and every other field as before. -/
def PortKey.set (cfg : config) (n : Nat) : PortKey → config
  | .app_port => { cfg with app_port := n }
  | .app_port_secure => { cfg with app_port_secure := n }
  | .web_port => { cfg with web_port := n }

/-- The number written by decimal digits, most significant first. -/
def decimal_value (digits : List Nat) : Nat :=
  Nat.ofDigits 10 (digits.reverse.map (fun d => d - 48))

/-- The value text `v` parses, base 10 and after trimming, to the integer `n`: blanks, an
optional sign, at least one decimal digit, blanks. -/
def parses_to (v : List Nat) (n : Int) : Prop :=
  ∃ ws1 ws2 sign digits : List Nat,
    v = ws1 ++ (sign ++ digits) ++ ws2
    ∧ (∀ b ∈ ws1, is_blank b = true) ∧ (∀ b ∈ ws2, is_blank b = true)
    ∧ (sign = [] ∨ sign = [45] ∨ sign = [43])
    ∧ digits ≠ [] ∧ (∀ d ∈ digits, is_digit d = true)
    ∧ n = if sign = [45] then -(decimal_value digits : Int) else (decimal_value digits : Int)

/-! ### File lists, written from the specification -/

/-- Lines joined by newlines, none after the last. -/
def join_lines : List (List Nat) → List Nat
  | [] => []
  | [e] => e
  | e :: es => e ++ 10 :: join_lines es

/-- A payload: the intent line and the entries, one per line. -/
def payload_of (intent : List Nat) (entries : List (List Nat)) : List Nat :=
  intent ++ 10 :: join_lines entries

/-- The clipboard offers the file-list target, with the given payload. -/
def offers (xclip : Xclip) (payload : List Nat) : Prop :=
  ∃ targets, xclip (ascii "TARGETS") = some targets ∧ targets ≠ []
    ∧ (strsep_tokens (cstring targets)).any (fun token => token == expected_target) = true
    ∧ xclip expected_target = some payload

/-- The entries as they lie in the buffer once every newline has become a terminator. -/
def laid_out : List (List Nat) → List Nat
  | [] => []
  | e :: es => e ++ 0 :: laid_out es

/-- The path an entry denotes: the percent-decoded text after `file://`, as a string;
`none` when the entry fails to decode. -/
def decode_entry (e : List Nat) : Option (List Nat) :=
  if (ascii "file://").isPrefixOf e then (percent_decode (e.drop 7)).map cstring else none

/-- The files `get_copied_files` is to return: in payload order, the decoded paths of the
entries before the first one that fails to decode, for which `stat` reports a regular file. -/
def copied_files (fs : FS) : List (List Nat) → list2
  | [] => []
  | e :: es =>
    match decode_entry e with
    | none => []
    | some path => (if fs.stat path = some .reg then [path] else []) ++ copied_files fs es

/-- The files found by expanding the directory `path`, starting at depth 1. -/
def expand_dir (fs : FS) (path : List Nat) : list2 :=
  match recurse_dir fs path [] 1 with
  | .ok l => l
  | .error _ => []

/-- The files `get_copied_dirs_files` is to return: as `copied_files`, with every directory
replaced by the files found under it. -/
def copied_dirs_files (fs : FS) : List (List Nat) → list2
  | [] => []
  | e :: es =>
    match decode_entry e with
    | none => []
    | some path =>
      (match fs.stat path with
        | some .reg => [path]
        | some .dir => expand_dir fs path
        | _ => []) ++ copied_dirs_files fs es

/-- The `path_len` rule: one more than the index of the last separator of the path when
that index is positive, otherwise 0. -/
def path_len_rule (path : List Nat) : Nat :=
  if path.reverse.indexOf PATH_SEP + 1 < path.length then
    path.length - path.reverse.indexOf PATH_SEP
  else 0

/-- The `path_len` of a payload: the rule applied to the first entry when it decodes. -/
def first_path_len (entries : List (List Nat)) : Nat :=
  match entries.head? with
  | none => 0
  | some e =>
    match decode_entry e with
    | none => 0
    | some path => path_len_rule path

/-- The entries are lines of a NUL-free text. -/
def plain (entries : List (List Nat)) : Prop :=
  ∀ e ∈ entries, ∀ b ∈ e, b ≠ 0 ∧ b ≠ 10

/-- No entry consists of the scheme `file://` alone. -/
def no_bare_scheme (entries : List (List Nat)) : Prop :=
  ∀ e ∈ entries, e ≠ ascii "file://"

instance (entries : List (List Nat)) : Decidable (plain entries) := by
  unfold plain; infer_instance

instance (entries : List (List Nat)) : Decidable (no_bare_scheme entries) := by
  unfold no_bare_scheme; infer_instance

/-- The value of `ret.path_len` after the loop has run from pass `i` over the entries. -/
def path_len_after (i : Nat) (entries : List (List Nat)) (path_len : Nat) : Nat :=
  match entries with
  | [] => path_len
  | e :: _ =>
    match decode_entry e with
    | none => path_len
    | some path => first_entry_path_len i path path_len

/-- A chain of nested directories: a directory holding the file `f` and, `n` times over, a
directory `d` that holds the same. -/
def chain : Nat → Forest
  | 0 => .file (ascii "f") .nil
  | n + 1 => .file (ascii "f") (.dir (ascii "d") (chain n) .nil)

/-- A file system whose directories, down to `n` levels of `d`, hold `f` and `d`, the
last one `f` only. -/
def chain_fs (n : Nat) : FS where
  stat := fun path => if path.getLast? = some 102 then some .reg else some .dir
  lstat := fun path => if path.getLast? = some 102 then some .reg else some .dir
  opendir := fun path =>
    if path.count 100 < n then some [ascii ".", ascii "..", ascii "f", ascii "d"]
    else some [ascii ".", ascii "..", ascii "f"]

/-! ### Allow-list and configuration files, written from the specification -/

/-- Trimming as the specification describes it: leading and trailing bytes in `1..32`
removed. -/
def strip (s : List Nat) : List Nat :=
  ((s.dropWhile is_blank).reverse.dropWhile is_blank).reverse

/-- The allow-list a file is to yield: the trimmed lines that are non-empty and do not start
with `#`, in file order. -/
def allow_list_of (lines : List (List Nat)) : list2 :=
  (lines.map strip).filter (fun t => t != [] && t.head? != some 35)

/-- A text file whose lines all end in a newline. -/
def text_of : List (List Nat) → List Nat
  | [] => []
  | l :: ls => l ++ 10 :: text_of ls

/-- A line the loop of `get_client_list` can take in: at most 511 bytes, none of them NUL or
newline, at least one of them not a blank. -/
def solid_line (l : List Nat) : Prop :=
  l.length ≤ 511 ∧ (∀ b ∈ l, b ≠ 0 ∧ b ≠ 10) ∧ ∃ b ∈ l, is_blank b = false

instance (l : List Nat) : Decidable (solid_line l) := by
  unfold solid_line; infer_instance

/-- The keys `parse_line` acts on. -/
def recognised_keys : List (List Nat) :=
  [ascii "app_port", ascii "app_port_secure", ascii "web_port", ascii "server_key",
    ascii "server_cert", ascii "ca_cert", ascii "allowed_clients"]

/-- A line the loop of `parse_conf` can take in: not empty, at most 2047 bytes, none of
them NUL or newline. -/
def conf_line (l : List Nat) : Prop :=
  l ≠ [] ∧ l.length ≤ 2047 ∧ ∀ b ∈ l, b ≠ 0 ∧ b ≠ 10

/-- A line that is to leave the record unchanged: one without `=`, or one whose key is not
a recognised key (the line has a key, and a value that is not blank). -/
def ignored_line (l : List Nat) : Bool :=
  if 61 ∈ l then
    match sscanf_s 255 (l.takeWhile (fun b => b != 61)) with
    | none => false
    | some key =>
      !recognised_keys.contains key
        && ((l.dropWhile (fun b => b != 61)).drop 1).any (fun b => !is_blank b)
  else true

/-- The effect of a sequence of lines on the record, one `parse_line` after the other. -/
def conf_fold (files : Files) (client_fuel : Nat) : List (List Nat) → config → Except Fault config
  | [], cfg => .ok cfg
  | l :: ls, cfg =>
    match parse_line client_fuel files l cfg with
    | .error e => .error e
    | .ok (_, cfg1) => conf_fold files client_fuel ls cfg1

/-! ## Theorems -/

/-! ### Memory access under a prefix -/

theorem load_behind (A m : List Nat) (p : Nat) : load (A ++ m) (A.length + p) = load m p := by
  unfold load
  rw [List.getElem?_append_right (Nat.le_add_right _ _), Nat.add_sub_cancel_left]

theorem load_zero_cons (b : Nat) (m : List Nat) : load (b :: m) 0 = .ok b := by
  simp [load]

theorem load_at (A : List Nat) (b : Nat) (m : List Nat) : load (A ++ b :: m) A.length = .ok b := by
  have h := load_behind A (b :: m) 0
  rw [Nat.add_zero, load_zero_cons] at h
  exact h

theorem store_behind (A m : List Nat) (p b : Nat) :
    store (A ++ m) (A.length + p) b
      = match store m p b with
        | .ok m1 => .ok (A ++ m1)
        | .error e => .error e := by
  unfold store
  by_cases h : p < m.length
  · simp [h, List.set_append]
  · simp [h]

theorem store_at (A : List Nat) (g b : Nat) (m : List Nat) :
    store (A ++ g :: m) A.length b = .ok (A ++ b :: m) := by
  simp [store]

theorem url_decode_unit_behind (A m : List Nat) (p : Nat) :
    url_decode_unit (A ++ m) (A.length + p)
      = match url_decode_unit m p with
        | .ok (some (c, q)) => .ok (some (c, A.length + q))
        | .ok none => .ok none
        | .error e => .error e := by
  unfold url_decode_unit
  rw [load_behind, Nat.add_assoc, load_behind, Nat.add_assoc, load_behind]
  cases load m p with
  | error e => rfl
  | ok b =>
    by_cases hb : b = 37
    · simp only [hb, if_true]
      cases load m (p + 1) with
      | error e => rfl
      | ok t1 =>
        by_cases h1 : hex2char t1 < 0
        · simp [h1]
        · simp only [h1, if_false]
          cases load m (p + 2) with
          | error e => rfl
          | ok t2 =>
            by_cases h2 : hex2char t2 < 0
            · simp [h2]
            · simp [h2]
    · simp [hb]

theorem url_decode_loop_behind (A : List Nat) :
    ∀ (fuel : Nat) (m : List Nat) (p1 p2 : Nat),
      url_decode_loop fuel (A ++ m) (A.length + p1) (A.length + p2)
        = behind A (url_decode_loop fuel m p1 p2) := by
  intro fuel
  induction fuel with
  | zero => intro m p1 p2; rfl
  | succ n ih =>
    intro m p1 p2
    simp only [url_decode_loop]
    rw [url_decode_unit_behind]
    cases hu : url_decode_unit m p2 with
    | error e => rfl
    | ok r =>
      cases r with
      | none => rfl
      | some cq =>
        obtain ⟨c, q⟩ := cq
        simp only
        rw [store_behind]
        cases hs : store m p1 c with
        | error e => rfl
        | ok m1 =>
          simp only
          rw [Nat.add_assoc, load_behind]
          cases hl : load m1 (q + 1) with
          | error e => rfl
          | ok b =>
            simp only
            by_cases hb : b = 0
            · simp only [hb, if_true]
              rw [Nat.add_assoc, store_behind]
              cases store m1 (p1 + 1) 0 <;> rfl
            · simp only [hb, if_false]
              rw [Nat.add_assoc A.length p1 1, ih]


/-- One pass of the loop, given what the body decoded: the unit `U` has been consumed and
the byte `d` written over the first byte of the gap `g :: G`. -/
theorem url_decode_loop_step (f : Nat) (g : Nat) (G U : List Nat) (d : Nat) (R post : List Nat)
    (hU : U ≠ []) (hR : ∀ b ∈ R, b ≠ 0)
    (hunit : url_decode_unit (g :: (G ++ (U ++ (R ++ 0 :: post)))) (G.length + 1)
      = .ok (some (d, G.length + U.length))) :
    url_decode_loop (f + 1) (g :: (G ++ (U ++ (R ++ 0 :: post)))) 0 (G.length + 1)
      = if R = [] then .ok (EXIT_SUCCESS, d :: 0 :: ((G ++ U).drop 1 ++ 0 :: post))
        else behind [d] (url_decode_loop f ((G ++ U) ++ (R ++ 0 :: post)) 0 (G ++ U).length) := by
  simp only [url_decode_loop, hunit]
  have hst : store (g :: (G ++ (U ++ (R ++ 0 :: post)))) 0 d
      = .ok (d :: (G ++ (U ++ (R ++ 0 :: post)))) := by simp [store]
  rw [hst]
  simp only
  have hmem : d :: (G ++ (U ++ (R ++ 0 :: post))) = [d] ++ ((G ++ U) ++ (R ++ 0 :: post)) := by
    simp
  have hidx : G.length + U.length + 1 = [d].length + (G ++ U).length := by
    simp; omega
  rw [hmem, hidx, load_behind]
  cases R with
  | nil =>
    have hl : load ((G ++ U) ++ ([] ++ 0 :: post)) (G ++ U).length = .ok 0 := by
      simpa using load_at (G ++ U) 0 post
    rw [hl]
    simp only [if_true]
    have hne : G ++ U ≠ [] := by simp [hU]
    cases hGU : G ++ U with
    | nil => exact absurd hGU hne
    | cons y Y => simp [store]
  | cons r R1 =>
    have hl : load ((G ++ U) ++ ((r :: R1) ++ 0 :: post)) (G ++ U).length = .ok r := by
      simpa using load_at (G ++ U) r (R1 ++ 0 :: post)
    rw [hl]
    have hr : r ≠ 0 := hR r (by simp)
    simp only [hr, if_false]
    have := url_decode_loop_behind [d] f ((G ++ U) ++ ((r :: R1) ++ 0 :: post)) 0 (G ++ U).length
    simpa using this

theorem url_decode_unit_lit (g : Nat) (G : List Nat) (c : Nat) (X : List Nat) (hc : c ≠ 37) :
    url_decode_unit (g :: (G ++ ([c] ++ X))) (G.length + 1) = .ok (some (c, G.length + [c].length)) := by
  have h : load (g :: (G ++ ([c] ++ X))) (G.length + 1) = .ok c := by
    simpa using load_at (g :: G) c X
  unfold url_decode_unit
  rw [h]
  simp [hc]

theorem url_decode_unit_esc (g : Nat) (G : List Nat) (a b : Nat) (X : List Nat) :
    url_decode_unit (g :: (G ++ ([37, a, b] ++ X))) (G.length + 1)
      = if hex2char a < 0 ∨ hex2char b < 0 then .ok none
        else .ok (some (hex_pair (hex2char a) (hex2char b), G.length + [37, a, b].length)) := by
  have h0 : load (g :: (G ++ ([37, a, b] ++ X))) (G.length + 1) = .ok 37 := by
    simpa using load_at (g :: G) 37 (a :: b :: X)
  have h1 : load (g :: (G ++ ([37, a, b] ++ X))) (G.length + 1 + 1) = .ok a := by
    have := load_at (g :: (G ++ [37])) a (b :: X)
    simp only [List.length_cons, List.length_append, List.length_nil] at this
    rw [← this]; simp
  have h2 : load (g :: (G ++ ([37, a, b] ++ X))) (G.length + 1 + 2) = .ok b := by
    have := load_at (g :: (G ++ [37, a])) b X
    simp only [List.length_cons, List.length_append, List.length_nil] at this
    rw [← this]; simp
  simp only [url_decode_unit, h0, h1, h2, if_true]
  by_cases ha : hex2char a < 0
  · simp [ha]
  · by_cases hb : hex2char b < 0
    · simp [ha, hb]
    · simp [ha, hb]

theorem hex2char_zero : hex2char 0 < 0 := by decide

theorem url_decode_unit_cut (g : Nat) (G : List Nat) (a : Nat) (X : List Nat)
    (ha : hex2char a < 0) :
    url_decode_unit (g :: (G ++ (37 :: a :: X))) (G.length + 1) = .ok none := by
  have h0 : load (g :: (G ++ (37 :: a :: X))) (G.length + 1) = .ok 37 := by
    simpa using load_at (g :: G) 37 (a :: X)
  have h1 : load (g :: (G ++ (37 :: a :: X))) (G.length + 1 + 1) = .ok a := by
    have := load_at (g :: (G ++ [37])) a X
    simp only [List.length_cons, List.length_append, List.length_nil] at this
    rw [← this]; simp
  simp only [url_decode_unit, h0, h1, if_true, ha]

theorem url_decode_loop_fail (f : Nat) (m : Mem) (p1 p2 : Nat)
    (h : url_decode_unit m p2 = .ok none) :
    url_decode_loop (f + 1) m p1 p2 = .ok (EXIT_FAILURE, m) := by
  simp only [url_decode_loop, h]

theorem percent_decode_lit (c : Nat) (rest : List Nat) (hc : c ≠ 37) :
    percent_decode (c :: rest) = (percent_decode rest).map (fun d => c :: d) := by
  conv_lhs => unfold percent_decode
  simp [hc]

theorem percent_decode_esc (a b : Nat) (rest : List Nat) :
    percent_decode (37 :: a :: b :: rest)
      = if hex2char a < 0 ∨ hex2char b < 0 then none
        else (percent_decode rest).map (fun d => hex_pair (hex2char a) (hex2char b) :: d) := by
  conv_lhs => unfold percent_decode
  simp

theorem percent_decode_cut1 : percent_decode [37] = none := by
  unfold percent_decode; simp

theorem percent_decode_cut2 (a : Nat) : percent_decode [37, a] = none := by
  unfold percent_decode; simp

theorem url_decode_loop_spec :
    ∀ (f : Nat) (G R post : List Nat), G ≠ [] → R ≠ [] → (∀ b ∈ R, b ≠ 0) → R.length ≤ f →
      (∀ D, percent_decode R = some D →
        url_decode_loop f (G ++ (R ++ 0 :: post)) 0 G.length
          = .ok (EXIT_SUCCESS, D ++ 0 :: ((G ++ R).drop (D.length + 1) ++ 0 :: post)))
      ∧ (percent_decode R = none →
        ∃ m1, url_decode_loop f (G ++ (R ++ 0 :: post)) 0 G.length = .ok (EXIT_FAILURE, m1)) := by
  intro f
  induction f with
  | zero =>
    intro G R post _ hR _ hlen
    cases R with
    | nil => exact absurd rfl hR
    | cons c R1 => simp at hlen
  | succ f ih =>
    intro G R post hG hR hnz hlen
    cases G with
    | nil => exact absurd rfl hG
    | cons g G1 =>
    cases R with
    | nil => exact absurd rfl hR
    | cons c R1 =>
    by_cases hc : c = 37
    · subst hc
      have hlen0 : (g :: G1).length = G1.length + 1 := rfl
      cases R1 with
      | nil =>
        have hu := url_decode_unit_cut g G1 0 post hex2char_zero
        constructor
        · intro D hD; rw [percent_decode_cut1] at hD; cases hD
        · intro _
          exact ⟨_, by simpa using url_decode_loop_fail f _ 0 _ hu⟩
      | cons a R2 =>
        cases R2 with
        | nil =>
          have hu := url_decode_unit_esc g G1 a 0 post
          simp only [hex2char_zero, or_true, if_true] at hu
          constructor
          · intro D hD; rw [percent_decode_cut2] at hD; cases hD
          · intro _
            exact ⟨_, by simpa using url_decode_loop_fail f _ 0 _ hu⟩
        | cons b R3 =>
          have hu := url_decode_unit_esc g G1 a b (R3 ++ 0 :: post)
          rw [percent_decode_esc]
          by_cases hbad : hex2char a < 0 ∨ hex2char b < 0
          · simp only [hbad, if_true] at hu ⊢
            constructor
            · intro D hD; cases hD
            · intro _
              exact ⟨_, by simpa using url_decode_loop_fail f _ 0 _ hu⟩
          · simp only [hbad, if_false] at hu ⊢
            have hnz3 : ∀ x ∈ R3, x ≠ 0 := fun x hx => hnz x (by simp [hx])
            have hstep := url_decode_loop_step f g G1 [37, a, b] _ R3 post (by simp) hnz3 hu
            have hmem : (g :: G1) ++ ((37 :: a :: b :: R3) ++ 0 :: post)
                = g :: (G1 ++ ([37, a, b] ++ (R3 ++ 0 :: post))) := by simp
            rw [hmem, hlen0, hstep]
            by_cases hR3 : R3 = []
            · subst hR3
              simp [percent_decode]
            · simp only [hR3, if_false]
              have hlen3 : R3.length ≤ f := by simp at hlen; omega
              obtain ⟨ihS, ihF⟩ := ih (G1 ++ [37, a, b]) R3 post (by simp) hR3 hnz3 hlen3
              constructor
              · intro D hD
                cases hp : percent_decode R3 with
                | none => simp [hp] at hD
                | some D1 =>
                  simp [hp] at hD
                  subst hD
                  rw [ihS D1 hp]
                  simp [behind]
              · intro hN
                cases hp : percent_decode R3 with
                | some D1 => simp [hp] at hN
                | none =>
                  obtain ⟨m1, hm1⟩ := ihF hp
                  rw [hm1]
                  exact ⟨_, rfl⟩
    · have hunit := url_decode_unit_lit g G1 c (R1 ++ 0 :: post) hc
      have hnz1 : ∀ b ∈ R1, b ≠ 0 := fun b hb => hnz b (by simp [hb])
      have hstep := url_decode_loop_step f g G1 [c] c R1 post (by simp) hnz1 hunit
      have hmem : (g :: G1) ++ ((c :: R1) ++ 0 :: post) = g :: (G1 ++ ([c] ++ (R1 ++ 0 :: post))) := by
        simp
      have hlen0 : (g :: G1).length = G1.length + 1 := rfl
      rw [hmem, hlen0, hstep]
      rw [percent_decode_lit c R1 hc]
      by_cases hR1 : R1 = []
      · subst hR1
        simp [percent_decode]
      · simp only [hR1, if_false]
        have hlen1 : R1.length ≤ f := by simp at hlen; omega
        obtain ⟨ihS, ihF⟩ := ih (G1 ++ [c]) R1 post (by simp) hR1 hnz1 hlen1
        constructor
        · intro D hD
          cases hp : percent_decode R1 with
          | none => simp [hp] at hD
          | some D1 =>
            simp [hp] at hD
            subst hD
            rw [ihS D1 hp]
            simp [behind]
        · intro hN
          cases hp : percent_decode R1 with
          | some D1 => simp [hp] at hN
          | none =>
            obtain ⟨m1, hm1⟩ := ihF hp
            rw [hm1]
            exact ⟨_, rfl⟩

theorem ascii_file : ascii "file://" = [102, 105, 108, 101, 58, 47, 47] := by decide

theorem ascii_scheme : ascii "://" = [58, 47, 47] := by decide

theorem strncmp_ne_behind (A : List Nat) :
    ∀ (lit m : List Nat) (p n : Nat),
      strncmp_ne lit (A ++ m) (A.length + p) n = strncmp_ne lit m p n := by
  intro lit
  induction lit with
  | nil =>
    intro m p n
    cases n with
    | zero => simp [strncmp_ne]
    | succ n => simp only [strncmp_ne, load_behind]
  | cons a lit ih =>
    intro m p n
    cases n with
    | zero => simp [strncmp_ne]
    | succ n =>
      simp only [strncmp_ne, load_behind]
      rw [Nat.add_assoc, ih]

theorem strncmp_ne_spec :
    ∀ (lit s post : List Nat), (∀ a ∈ lit, a ≠ 0) →
      strncmp_ne lit (s ++ 0 :: post) 0 lit.length = .ok (!lit.isPrefixOf s) := by
  intro lit
  induction lit with
  | nil => intro s post _; simp [strncmp_ne]
  | cons a lit ih =>
    intro s post hlit
    have ha : a ≠ 0 := hlit a (by simp)
    cases s with
    | nil => simp [strncmp_ne, load, ha]
    | cons b s =>
      simp only [List.length_cons, strncmp_ne, List.cons_append, load_zero_cons]
      by_cases hab : a = b
      · subst hab
        have h := strncmp_ne_behind [a] lit (s ++ 0 :: post) 0 lit.length
        simp only [List.length_cons, List.length_nil, List.singleton_append] at h
        simp only [bne_self_eq_false, Bool.false_eq_true, if_false]
        rw [h, ih s post (fun x hx => hlit x (by simp [hx]))]
        simp
      · have hne : (a == b) = false := by simpa using hab
        simp [hab, List.isPrefixOf, hne]

theorem strstr_file (pre X : List Nat) :
    strstr (pre ++ (ascii "file://" ++ X)) pre.length (ascii "://") = some (pre.length + 4) := by
  simp [strstr, ascii_file, ascii_scheme, strstr_from]

/-- A string that does not start with `file://` is rejected and left untouched. -/
theorem url_decode_no_scheme (pre s post : List Nat)
    (h : (ascii "file://").isPrefixOf s = false) :
    url_decode (pre ++ (s ++ 0 :: post)) pre.length = .ok (EXIT_FAILURE, pre ++ (s ++ 0 :: post)) := by
  have h7 : (ascii "file://").length = 7 := by decide
  have hc := strncmp_ne_behind pre (ascii "file://") (s ++ 0 :: post) 0 7
  rw [Nat.add_zero] at hc
  have hs := strncmp_ne_spec (ascii "file://") s post (by decide)
  rw [h7] at hs
  simp only [url_decode, hc, hs, h]
  rfl

/-- The decoder on `file://` followed by a non-empty text `R`, anywhere in memory. -/
theorem url_decode_spec (pre R post : List Nat) (hR : R ≠ []) (hnz : ∀ b ∈ R, b ≠ 0) :
    (∀ D, percent_decode R = some D →
      url_decode (pre ++ (ascii "file://" ++ (R ++ 0 :: post))) pre.length
        = .ok (EXIT_SUCCESS,
            pre ++ (D ++ 0 :: ((ascii "file://" ++ R).drop (D.length + 1) ++ 0 :: post))))
    ∧ (percent_decode R = none →
      ∃ m1, url_decode (pre ++ (ascii "file://" ++ (R ++ 0 :: post))) pre.length
        = .ok (EXIT_FAILURE, m1)) := by
  have h7 : (ascii "file://").length = 7 := by decide
  have hc := strncmp_ne_behind pre (ascii "file://") (ascii "file://" ++ (R ++ 0 :: post)) 0 7
  rw [Nat.add_zero] at hc
  have hs := strncmp_ne_spec (ascii "file://") (ascii "file://" ++ R) post (by decide)
  rw [h7] at hs
  have hpre : (ascii "file://").isPrefixOf (ascii "file://" ++ R) = true := by
    simp [ascii_file]
  rw [hpre] at hs
  simp only [List.append_assoc, Bool.not_true] at hs
  have hloop := url_decode_loop_behind pre
    ((pre ++ (ascii "file://" ++ (R ++ 0 :: post))).length + 1)
    (ascii "file://" ++ (R ++ 0 :: post)) 0 7
  rw [Nat.add_zero pre.length] at hloop
  have h43 : pre.length + (4 + 3) = pre.length + 7 := rfl
  have hfuel : R.length ≤ (pre ++ (ascii "file://" ++ (R ++ 0 :: post))).length + 1 := by
    simp; omega
  obtain ⟨hS, hF⟩ := url_decode_loop_spec _ (ascii "file://") R post (by decide) hR hnz hfuel
  rw [h7] at hS hF
  simp only [url_decode, hc, hs, strstr_file, Nat.add_assoc, h43, hloop]
  constructor
  · intro D hD
    rw [hS D hD]; rfl
  · intro hN
    obtain ⟨m1, hm1⟩ := hF hN
    rw [hm1]
    exact ⟨_, rfl⟩

/-! ### The reference semantics agree with each other -/

theorem hex2char_neg_iff (a : Nat) : hex2char a < 0 ↔ isHexDigit a = false := by
  unfold hex2char isHexDigit
  split_ifs with h1 h2 h3 <;> simp <;> omega

theorem escapes_ok_lit (c : Nat) (rest : List Nat) (hc : c ≠ 37) :
    escapes_ok (c :: rest) = escapes_ok rest := by
  conv_lhs => unfold escapes_ok
  simp [hc]

theorem escapes_ok_esc (a b : Nat) (rest : List Nat) :
    escapes_ok (37 :: a :: b :: rest) = (isHexDigit a && isHexDigit b && escapes_ok rest) := by
  conv_lhs => unfold escapes_ok
  simp

theorem escapes_ok_cut1 : escapes_ok [37] = false := by
  unfold escapes_ok; simp

theorem escapes_ok_cut2 (a : Nat) : escapes_ok [37, a] = false := by
  unfold escapes_ok; simp

theorem percent_decode_isSome (R : List Nat) : (percent_decode R).isSome = escapes_ok R := by
  induction R using escapes_ok.induct with
  | case1 => rfl
  | case2 a b rest ih =>
    rw [percent_decode_esc, escapes_ok_esc, ← ih]
    by_cases ha : hex2char a < 0
    · have := (hex2char_neg_iff a).1 ha
      simp [ha, this]
    · have ha2 : isHexDigit a = true := by
        cases h : isHexDigit a with
        | true => rfl
        | false => exact absurd ((hex2char_neg_iff a).2 h) ha
      by_cases hb : hex2char b < 0
      · have := (hex2char_neg_iff b).1 hb
        simp [hb, this]
      · have hb2 : isHexDigit b = true := by
          cases h : isHexDigit b with
          | true => rfl
          | false => exact absurd ((hex2char_neg_iff b).2 h) hb
        simp [ha, hb, ha2, hb2]
  | case3 rest hrest =>
    cases rest with
    | nil => rw [percent_decode_cut1, escapes_ok_cut1]; rfl
    | cons a rest =>
      cases rest with
      | nil => rw [percent_decode_cut2, escapes_ok_cut2]; rfl
      | cons b rest => exact absurd rfl (hrest a b rest)
  | case4 c rest hc ih =>
    rw [percent_decode_lit c rest hc, escapes_ok_lit c rest hc, ← ih]
    simp

theorem escapes_ok_truncated (t : List Nat) :
    escapes_ok (t ++ [37]) = false ∧ ∀ h, escapes_ok (t ++ [37, h]) = false := by
  induction t using escapes_ok.induct with
  | case1 => exact ⟨escapes_ok_cut1, fun h => escapes_ok_cut2 h⟩
  | case2 a b rest ih =>
    constructor
    · simp [escapes_ok_esc, ih.1]
    · intro h; simp [escapes_ok_esc, ih.2 h]
  | case3 rest hrest =>
    have h37 : isHexDigit 37 = false := by decide
    cases rest with
    | nil =>
      constructor
      · exact escapes_ok_cut2 37
      · intro h; simp [escapes_ok_esc, h37]
    | cons a rest =>
      cases rest with
      | nil =>
        constructor
        · simp [escapes_ok_esc, h37]
        · intro h; simp [escapes_ok_esc, h37]
      | cons b rest => exact absurd rfl (hrest a b rest)
  | case4 c rest hc ih =>
    constructor
    · simpa [escapes_ok_lit _ _ hc] using ih.1
    · intro h; simpa [escapes_ok_lit _ _ hc] using ih.2 h

theorem hex2char_hex_digit : ∀ u : Bool, ∀ v < 16, hex2char (hex_digit u v) = (v : Int) := by
  decide

theorem hex_digit_ne_zero (u : Bool) (v : Nat) : hex_digit u v ≠ 0 := by
  unfold hex_digit; split_ifs <;> omega

set_option maxRecDepth 100000 in
theorem hex_pair_div_mod : ∀ b < 256, hex_pair ((b / 16 : Nat) : Int) ((b % 16 : Nat) : Int) = b := by
  decide

theorem percent_decode_encode (l : List (Nat × Enc)) (h : encodable l) :
    percent_decode (encode l) = some (l.map Prod.fst) := by
  induction l with
  | nil => rfl
  | cons x l ih =>
    obtain ⟨b, e⟩ := x
    have hb := h (b, e) (by simp)
    have ih1 := ih (fun y hy => h y (by simp [hy]))
    cases e with
    | lit =>
      have h37 : b ≠ 37 := hb.2.2 rfl
      simp [encode, encode_byte, percent_decode_lit _ _ h37, ih1]
    | esc u1 u2 =>
      have h1 := hex2char_hex_digit u1 (b / 16) (by omega)
      have h2 := hex2char_hex_digit u2 (b % 16) (by omega)
      have h3 := hex_pair_div_mod b hb.2.1
      simp only [encode, encode_byte, List.cons_append, List.nil_append, percent_decode_esc, h1, h2,
        ih1, h3]
      simp
      omega

theorem encode_ne_zero (l : List (Nat × Enc)) (h : encodable l) : ∀ b ∈ encode l, b ≠ 0 := by
  induction l with
  | nil => intro b hb; simp [encode] at hb
  | cons x l ih =>
    obtain ⟨c, e⟩ := x
    have hc := h (c, e) (by simp)
    have ih1 := ih (fun y hy => h y (by simp [hy]))
    intro b hb
    cases e with
    | lit =>
      simp only [encode, encode_byte, List.singleton_append, List.mem_cons] at hb
      rcases hb with hb | hb
      · rw [hb]; exact hc.1
      · exact ih1 b hb
    | esc u1 u2 =>
      simp only [encode, encode_byte, List.cons_append, List.nil_append, List.mem_cons] at hb
      rcases hb with hb | hb | hb | hb
      · omega
      · rw [hb]; exact hex_digit_ne_zero _ _
      · rw [hb]; exact hex_digit_ne_zero _ _
      · exact ih1 b hb

theorem encode_ne_nil (l : List (Nat × Enc)) (h : l ≠ []) : encode l ≠ [] := by
  cases l with
  | nil => exact absurd rfl h
  | cons x l =>
    obtain ⟨c, e⟩ := x
    cases e <;> simp [encode, encode_byte]

theorem cstr_at (pre D X : List Nat) (hD : ∀ b ∈ D, b ≠ 0) :
    cstr (pre ++ (D ++ 0 :: X)) pre.length = .ok D := by
  have htw : ∀ D : List Nat, (∀ b ∈ D, b ≠ 0) →
      (D ++ 0 :: X).takeWhile (fun b => b != 0) = D := by
    intro D
    induction D with
    | nil => intro _; simp
    | cons d D ih =>
      intro h
      have hd : d ≠ 0 := h d (by simp)
      have hd2 : (d != 0) = true := by simpa using hd
      simp [List.takeWhile, hd2, ih (fun b hb => h b (by simp [hb]))]
  simp [cstr, htw D hD]

/-- C1: `url_decode` round trip. For every non-empty path of non-NUL bytes and every way of
writing it (each byte literally, allowed only when it is not `%`, or as `%` and its two
hexadecimal digits in either case), `url_decode` applied in place to `file://` followed by
the encoding returns `EXIT_SUCCESS` and leaves exactly the path as the string at `str`. -/
theorem url_decode_round_trip (l : List (Nat × Enc)) (hne : l ≠ []) (henc : encodable l) :
    ∃ m1, url_decode (ascii "file://" ++ (encode l ++ [0])) 0 = .ok (EXIT_SUCCESS, m1)
      ∧ cstr m1 0 = .ok (l.map Prod.fst) := by
  have hspec := (url_decode_spec [] (encode l) [] (encode_ne_nil l hne) (encode_ne_zero l henc)).1
    _ (percent_decode_encode l henc)
  refine ⟨_, hspec, ?_⟩
  have hD : ∀ b ∈ l.map Prod.fst, b ≠ 0 := by
    intro b hb
    obtain ⟨x, hx, rfl⟩ := List.mem_map.1 hb
    exact (henc x hx).1
  exact cstr_at [] _ _ hD

theorem url_decode_round_trip_witness :
    [(47, Enc.lit), (97, Enc.esc true false), (37, Enc.esc false true)] ≠ []
      ∧ encodable [(47, Enc.lit), (97, Enc.esc true false), (37, Enc.esc false true)]
      ∧ ∃ m1, url_decode (ascii "file://"
            ++ (encode [(47, Enc.lit), (97, Enc.esc true false), (37, Enc.esc false true)] ++ [0])) 0
          = .ok (EXIT_SUCCESS, m1)
        ∧ cstr m1 0 = .ok [47, 97, 37] :=
  ⟨by decide, by decide,
    url_decode_round_trip [(47, Enc.lit), (97, Enc.esc true false), (37, Enc.esc false true)]
      (by decide) (by decide)⟩

theorem take_ne_isPrefixOf (s : List Nat) (h : s.take 7 ≠ ascii "file://") :
    (ascii "file://").isPrefixOf s = false := by
  cases hp : (ascii "file://").isPrefixOf s with
  | false => rfl
  | true =>
    obtain ⟨t, ht⟩ := List.isPrefixOf_iff_prefix.1 hp
    exfalso
    apply h
    rw [← ht]
    simp [ascii_file]

/-- C2: failure condition of `url_decode`. For every string (non-NUL bytes) longer than 7
characters, `url_decode` returns `EXIT_FAILURE` exactly when the string does not begin with
`file://` or the left-to-right scan of the rest meets a `%` that is not followed by two
hexadecimal digits; every other such string returns `EXIT_SUCCESS`; and a string that ends in
a truncated escape (`%`, or `%` and one more character) fails. -/
theorem url_decode_failure_iff (s : List Nat) (hnz : ∀ b ∈ s, b ≠ 0) (hlen : 7 < s.length) :
    ((∃ m1, url_decode (s ++ [0]) 0 = .ok (EXIT_FAILURE, m1))
        ↔ (s.take 7 ≠ ascii "file://" ∨ escapes_ok (s.drop 7) = false))
    ∧ ((∃ m1, url_decode (s ++ [0]) 0 = .ok (EXIT_SUCCESS, m1))
        ↔ (s.take 7 = ascii "file://" ∧ escapes_ok (s.drop 7) = true))
    ∧ ((∃ t, s = t ++ [37]) → ∃ m1, url_decode (s ++ [0]) 0 = .ok (EXIT_FAILURE, m1))
    ∧ ((∃ t h, s = t ++ [37, h]) → ∃ m1, url_decode (s ++ [0]) 0 = .ok (EXIT_FAILURE, m1)) := by
  have hne : EXIT_SUCCESS ≠ EXIT_FAILURE := by decide
  have hsplit : s = s.take 7 ++ s.drop 7 := (List.take_append_drop 7 s).symm
  have hRne : s.drop 7 ≠ [] := by
    intro h
    have := congrArg List.length h
    simp at this
    omega
  have hRnz : ∀ b ∈ s.drop 7, b ≠ 0 := fun b hb => hnz b (List.mem_of_mem_drop hb)
  -- the two possible outcomes
  have hbad : (s.take 7 ≠ ascii "file://" ∨ escapes_ok (s.drop 7) = false) →
      ∃ m1, url_decode (s ++ [0]) 0 = .ok (EXIT_FAILURE, m1) := by
    intro h
    by_cases hp : s.take 7 = ascii "file://"
    · have hesc : escapes_ok (s.drop 7) = false := by
        rcases h with h | h
        · exact absurd hp h
        · exact h
      have hpd : percent_decode (s.drop 7) = none := by
        have := percent_decode_isSome (s.drop 7)
        rw [hesc] at this
        cases hq : percent_decode (s.drop 7) with
        | none => rfl
        | some D => rw [hq] at this; cases this
      obtain ⟨m1, hm1⟩ := (url_decode_spec [] (s.drop 7) [] hRne hRnz).2 hpd
      refine ⟨m1, ?_⟩
      rw [← hm1]
      conv_lhs => rw [hsplit, hp]
      simp
    · have := url_decode_no_scheme [] s [] (take_ne_isPrefixOf s hp)
      exact ⟨_, this⟩
  have hgood : (s.take 7 = ascii "file://" ∧ escapes_ok (s.drop 7) = true) →
      ∃ m1, url_decode (s ++ [0]) 0 = .ok (EXIT_SUCCESS, m1) := by
    intro ⟨hp, hesc⟩
    have := percent_decode_isSome (s.drop 7)
    rw [hesc] at this
    cases hq : percent_decode (s.drop 7) with
    | none => rw [hq] at this; cases this
    | some D =>
      have hm1 := (url_decode_spec [] (s.drop 7) [] hRne hRnz).1 D hq
      refine ⟨[] ++ (D ++ 0 :: (List.drop (D.length + 1) (ascii "file://" ++ List.drop 7 s) ++ [0])), ?_⟩
      rw [← hm1]
      conv_lhs => rw [hsplit, hp]
      simp
  have hdich : (s.take 7 ≠ ascii "file://" ∨ escapes_ok (s.drop 7) = false)
      ∨ (s.take 7 = ascii "file://" ∧ escapes_ok (s.drop 7) = true) := by
    by_cases hp : s.take 7 = ascii "file://"
    · cases he : escapes_ok (s.drop 7) with
      | true => exact Or.inr ⟨hp, rfl⟩
      | false => exact Or.inl (Or.inr rfl)
    · exact Or.inl (Or.inl hp)
  refine ⟨⟨?_, hbad⟩, ⟨?_, hgood⟩, ?_, ?_⟩
  · intro ⟨m1, hm1⟩
    rcases hdich with h | h
    · exact h
    · obtain ⟨m2, hm2⟩ := hgood h
      rw [hm1] at hm2
      cases hm2
  · intro ⟨m1, hm1⟩
    rcases hdich with h | h
    · obtain ⟨m2, hm2⟩ := hbad h
      rw [hm1] at hm2
      cases hm2
    · exact h
  · intro ⟨t, ht⟩
    apply hbad
    by_cases hp : s.take 7 = ascii "file://"
    · right
      have h7 : 7 ≤ t.length := by
        have := congrArg List.length ht
        simp at this
        omega
      rw [ht, List.drop_append_of_le_length h7]
      exact (escapes_ok_truncated _).1
    · exact Or.inl hp
  · intro ⟨t, h, ht⟩
    apply hbad
    by_cases hp : s.take 7 = ascii "file://"
    · right
      have h6 : 6 ≤ t.length := by
        have := congrArg List.length ht
        simp at this
        omega
      by_cases h7 : 7 ≤ t.length
      · rw [ht, List.drop_append_of_le_length h7]
        exact (escapes_ok_truncated _).2 h
      · exfalso
        have ht6 : t.length = 6 := by omega
        have h6th : s[6]? = some 37 := by
          rw [ht]
          rw [List.getElem?_append_right (by omega)]
          simp [ht6]
        have h6th2 : (s.take 7)[6]? = some 37 := by
          rw [List.getElem?_take_of_lt (by omega)]
          exact h6th
        rw [hp, ascii_file] at h6th2
        simp at h6th2
    · exact Or.inl hp

theorem url_decode_failure_iff_witness :
    (∀ b ∈ ascii "file:///a%2", b ≠ 0) ∧ 7 < (ascii "file:///a%2").length
      ∧ ∃ m1, url_decode (ascii "file:///a%2" ++ [0]) 0 = .ok (EXIT_FAILURE, m1) :=
  ⟨by decide, by decide,
    (url_decode_failure_iff (ascii "file:///a%2") (by decide) (by decide)).2.2.2
      ⟨ascii "file:///a", 50, by decide⟩⟩

/-! ### `recurse_dir` -/

theorem with_sep_ne_nil (path : List Nat) : with_sep path ≠ [] := by
  unfold with_sep
  split_ifs with h
  · intro hp; rw [hp] at h; simp at h
  · simp

/-- The name the code builds before the loop is `with_sep path`. -/
theorem with_sep_of_last (path : List Nat) (last : Nat) (h : path.getLast? = some last) :
    (if last ≠ PATH_SEP then path ++ [PATH_SEP] else path) = with_sep path := by
  unfold with_sep
  rw [h]
  by_cases hl : last = PATH_SEP
  · simp [hl]
  · simp [hl]

theorem recurse_dir_entries_dots (fs : FS) (recurse : List Nat → list2 → Except Fault list2)
    (pre : List Nat) (dots rest : List (List Nat)) (lst : list2)
    (h : ∀ x ∈ dots, ¬ (!is_dot x) = true) :
    recurse_dir_entries fs recurse pre (dots ++ rest) lst
      = recurse_dir_entries fs recurse pre rest lst := by
  induction dots with
  | nil => rfl
  | cons x dots ih =>
    have hx : is_dot x = true := by simpa using h x (by simp)
    simp only [List.cons_append, recurse_dir_entries, hx, if_true]
    exact ih (fun y hy => h y (by simp [hy]))

theorem recurse_dir_entries_nil_filter (fs : FS)
    (recurse : List Nat → list2 → Except Fault list2)
    (pre : List Nat) (names : List (List Nat)) (lst : list2)
    (h : names.filter (fun name => !is_dot name) = []) :
    recurse_dir_entries fs recurse pre names lst = .ok lst := by
  have hd : ∀ x ∈ names, ¬ (!is_dot x) = true := by
    intro x hx
    have := List.filter_eq_nil_iff.1 h x hx
    simpa using this
  have := recurse_dir_entries_dots fs recurse pre names [] lst hd
  simpa [recurse_dir_entries] using this

/-- The loop over a directory that holds the entries `F`, visited at counter `d`. -/
theorem recurse_dir_entries_spec (fs : FS) :
    ∀ (F : Forest) (pre : List Nat) (d fuel : Nat) (names : List (List Nat)) (lst : list2),
      d ≤ RECURSE_DEPTH_MAX → 1 ≤ fuel → RECURSE_DEPTH_MAX + 2 ≤ fuel + (d + 1) → pre ≠ [] →
      names.filter (fun name => !is_dot name) = F.names →
      holds_entries fs pre F = true →
      recurse_dir_entries fs (fun p l => recurse_dir_fuel fs fuel p l (d + 1)) pre names lst
        = .ok (lst ++ visible_files pre F d) := by
  intro F
  induction F with
  | nil =>
    intro pre d fuel names lst _ _ _ _ hn _
    simpa [visible_files] using recurse_dir_entries_nil_filter fs _ pre names lst hn
  | file name more ih =>
    intro pre d fuel names lst hd hf1 hf hpre hn hh
    obtain ⟨dots, rest, rfl, hdots, hname, hrest⟩ := List.filter_eq_cons_iff.1 hn
    simp only [holds_entries, Bool.and_eq_true, decide_eq_true_eq] at hh
    obtain ⟨⟨hnd, hreg⟩, hmore⟩ := hh
    have hnd2 : is_dot name = false := by simpa using hnd
    rw [recurse_dir_entries_dots fs _ pre dots _ lst hdots]
    simp only [recurse_dir_entries, hnd2, Bool.false_eq_true, if_false, hreg]
    rw [ih pre d fuel rest _ hd hf1 hf hpre hrest hmore]
    simp [append, visible_files]
  | dir name sub more ihsub ihmore =>
    intro pre d fuel names lst hd hf1 hf hpre hn hh
    obtain ⟨dots, rest, rfl, hdots, hname, hrest⟩ := List.filter_eq_cons_iff.1 hn
    simp only [holds_entries, Bool.and_eq_true, decide_eq_true_eq] at hh
    obtain ⟨⟨⟨⟨hnd, hdir⟩, hlist⟩, hsub⟩, hmore⟩ := hh
    have hnd2 : is_dot name = false := by simpa using hnd
    rw [recurse_dir_entries_dots fs _ pre dots _ lst hdots]
    simp only [recurse_dir_entries, hnd2, Bool.false_eq_true, if_false, hdir]
    -- the nested call
    have hcall : recurse_dir_fuel fs fuel (pre ++ name) lst (d + 1)
        = .ok (lst ++ (if d + 1 > RECURSE_DEPTH_MAX then []
            else visible_files (with_sep (pre ++ name)) sub (d + 1))) := by
      obtain ⟨f, rfl⟩ : ∃ f, fuel = f + 1 := ⟨fuel - 1, by omega⟩
      simp only [recurse_dir_fuel]
      by_cases hdeep : d + 1 > RECURSE_DEPTH_MAX
      · simp [hdeep]
      · simp only [hdeep, if_false]
        unfold listing at hlist
        cases hop : fs.opendir (pre ++ name) with
        | none => rw [hop] at hlist; cases hlist
        | some names1 =>
          rw [hop] at hlist
          simp only [Option.map_some', Option.some.injEq] at hlist
          have hne : pre ++ name ≠ [] := by simp [hpre]
          cases hlast : (pre ++ name).getLast? with
          | none => exact absurd (List.getLast?_eq_none_iff.1 hlast) hne
          | some last =>
            simp only
            rw [with_sep_of_last _ _ hlast]
            rw [ihsub (with_sep (pre ++ name)) (d + 1) f names1 lst (by omega)
              (by unfold RECURSE_DEPTH_MAX at *; omega) (by omega) (with_sep_ne_nil _) hlist hsub]
    rw [hcall]
    simp only
    rw [ihmore pre d fuel rest _ hd hf1 hf hpre hrest hmore]
    simp [visible_files]

/-- Function `recurse_dir` on a directory that holds a tree, for every sufficient nesting bound. -/
theorem recurse_dir_fuel_holds (fs : FS) (path : List Nat) (F : Forest) (lst : list2)
    (d : Nat) (h : holds_dir fs path F = true) :
    ∀ fuel, RECURSE_DEPTH_MAX + 2 ≤ fuel → recurse_dir_fuel fs fuel path lst d
      = .ok (lst ++ (if d > RECURSE_DEPTH_MAX then [] else visible_files (with_sep path) F d)) := by
  intro fuel hfuel
  simp only [holds_dir, Bool.and_eq_true, decide_eq_true_eq] at h
  obtain ⟨⟨hne, hlist⟩, hent⟩ := h
  obtain ⟨f, rfl⟩ : ∃ f, fuel = f + 1 := ⟨fuel - 1, by unfold RECURSE_DEPTH_MAX at *; omega⟩
  simp only [recurse_dir_fuel]
  by_cases hdeep : d > RECURSE_DEPTH_MAX
  · simp [hdeep]
  · simp only [hdeep, if_false]
    unfold listing at hlist
    cases hop : fs.opendir path with
    | none => rw [hop] at hlist; cases hlist
    | some names1 =>
      rw [hop] at hlist
      simp only [Option.map_some', Option.some.injEq] at hlist
      cases hlast : path.getLast? with
      | none => exact absurd (List.getLast?_eq_none_iff.1 hlast) hne
      | some last =>
        simp only
        rw [with_sep_of_last _ _ hlast]
        exact recurse_dir_entries_spec fs F (with_sep path) d f names1 lst (by omega)
          (by unfold RECURSE_DEPTH_MAX at *; omega) (by omega) (with_sep_ne_nil _) hlist hent

/-- C10: depth-bounded directory expansion. Over every file-system model that holds a tree
of directories and regular files (of any depth) at `path`, `recurse_dir(path, lst, d)`
returns (with any nesting bound of at least `RECURSE_DEPTH_MAX + 2`, so it terminates and
raises no error), keeps `lst` in place as a prefix, appends nothing when `d > 256`, and
otherwise appends exactly the regular files lying in directories visited with a counter of
at most 256 (`path` at `d`, each subdirectory at its parent's counter plus one). -/
theorem recurse_dir_depth_bounded (fs : FS) (path : List Nat) (F : Forest) (lst : list2)
    (d : Nat) (h : holds_dir fs path F = true) :
    recurse_dir fs path lst d
        = .ok (lst ++ (if d > RECURSE_DEPTH_MAX then [] else visible_files (with_sep path) F d))
    ∧ (∀ fuel, RECURSE_DEPTH_MAX + 2 ≤ fuel →
        recurse_dir_fuel fs fuel path lst d = recurse_dir fs path lst d)
    ∧ (d > RECURSE_DEPTH_MAX → recurse_dir fs path lst d = .ok lst) := by
  have key := recurse_dir_fuel_holds fs path F lst d h
  refine ⟨key _ (Nat.le_refl _), ?_, ?_⟩
  · intro fuel hfuel
    rw [key fuel hfuel]
    exact (key _ (Nat.le_refl _)).symm
  · intro hdeep
    have := key _ (Nat.le_refl _)
    simpa [recurse_dir, hdeep] using this

theorem recurse_dir_depth_bounded_witness :
    holds_dir (treeFS tmp_tree) (ascii "/tmp/sub") sub_tree = true
      ∧ recurse_dir (treeFS tmp_tree) (ascii "/tmp/sub") [ascii "/tmp/a.txt"] 255
        = .ok [ascii "/tmp/a.txt", ascii "/tmp/sub/x.txt", ascii "/tmp/sub/y/z.txt"]
      ∧ recurse_dir (treeFS tmp_tree) (ascii "/tmp/sub") [ascii "/tmp/a.txt"] 256
        = .ok [ascii "/tmp/a.txt", ascii "/tmp/sub/x.txt"] :=
  ⟨by decide,
    (recurse_dir_depth_bounded (treeFS tmp_tree) (ascii "/tmp/sub") sub_tree [ascii "/tmp/a.txt"] 255
      (by decide)).1.trans (by decide),
    (recurse_dir_depth_bounded (treeFS tmp_tree) (ascii "/tmp/sub") sub_tree [ascii "/tmp/a.txt"] 256
      (by decide)).1.trans (by decide)⟩

/-! ### `get_image` -/

/-- C9: fallback policy of `get_image`. If the clipboard query succeeds with non-zero
length, the result is success with exactly that buffer and length, the screenshot producer
is not called and the result does not depend on it; otherwise, if the screenshot producer
succeeds with non-zero length, the result is success with the screenshot's buffer and
length; and the result is failure, with length 0, exactly when both the clipboard query and
the screenshot fail or are empty. -/
theorem get_image_fallback (xclip screenshot : Produced) :
    ((xclip.ret = 0 ∧ xclip.len ≠ 0) →
        get_image xclip screenshot
            = { ret := EXIT_SUCCESS, len := xclip.len, buf := xclip.buf, screenshot_calls := 0 }
          ∧ ∀ other, get_image xclip other = get_image xclip screenshot)
    ∧ (¬ (xclip.ret = 0 ∧ xclip.len ≠ 0) → (screenshot.ret = 0 ∧ screenshot.len ≠ 0) →
        get_image xclip screenshot
          = { ret := EXIT_SUCCESS, len := screenshot.len, buf := screenshot.buf,
              screenshot_calls := 1 })
    ∧ ((get_image xclip screenshot).ret = EXIT_FAILURE
        ↔ (¬ (xclip.ret = 0 ∧ xclip.len ≠ 0) ∧ ¬ (screenshot.ret = 0 ∧ screenshot.len ≠ 0)))
    ∧ ((get_image xclip screenshot).ret = EXIT_FAILURE → (get_image xclip screenshot).len = 0)
    ∧ ((get_image xclip screenshot).ret = EXIT_SUCCESS ∨ (get_image xclip screenshot).ret = EXIT_FAILURE) := by
  have hne : EXIT_SUCCESS ≠ EXIT_FAILURE := by decide
  have hI : ∀ other, get_image xclip other
      = if xclip.ret ≠ 0 ∨ xclip.len = 0 then
          if other.ret ≠ 0 ∨ other.len = 0 then
            { ret := EXIT_FAILURE, len := 0, buf := other.buf, screenshot_calls := 1 }
          else
            { ret := EXIT_SUCCESS, len := other.len, buf := other.buf, screenshot_calls := 1 }
        else
          { ret := EXIT_SUCCESS, len := xclip.len, buf := xclip.buf, screenshot_calls := 0 } :=
    fun _ => rfl
  by_cases h1 : xclip.ret ≠ 0 ∨ xclip.len = 0
  · have h1n : ¬ (xclip.ret = 0 ∧ xclip.len ≠ 0) := by
      intro ⟨a, b⟩; rcases h1 with h | h
      · exact h a
      · exact b h
    by_cases h2 : screenshot.ret ≠ 0 ∨ screenshot.len = 0
    · have h2n : ¬ (screenshot.ret = 0 ∧ screenshot.len ≠ 0) := by
        intro ⟨a, b⟩; rcases h2 with h | h
        · exact h a
        · exact b h
      rw [hI, if_pos h1, if_pos h2]
      exact ⟨fun h => absurd h h1n, fun _ h => absurd h h2n, ⟨fun _ => ⟨h1n, h2n⟩, fun _ => rfl⟩,
        fun _ => rfl, Or.inr rfl⟩
    · have h2p : screenshot.ret = 0 ∧ screenshot.len ≠ 0 := by
        constructor
        · by_contra h; exact h2 (Or.inl h)
        · intro h; exact h2 (Or.inr h)
      rw [hI, if_pos h1, if_neg h2]
      exact ⟨fun h => absurd h h1n, fun _ _ => rfl,
        ⟨fun h => absurd h hne, fun h => absurd h2p h.2⟩, fun h => absurd h hne, Or.inl rfl⟩
  · have h1p : xclip.ret = 0 ∧ xclip.len ≠ 0 := by
      constructor
      · by_contra h; exact h1 (Or.inl h)
      · intro h; exact h1 (Or.inr h)
    rw [hI, if_neg h1]
    exact ⟨fun _ => ⟨rfl, fun other => by rw [hI, if_neg h1]⟩, fun h => absurd h1p h,
      ⟨fun h => absurd h hne, fun h => absurd h1p h.1⟩, fun h => absurd h hne, Or.inl rfl⟩

theorem get_image_fallback_witness :
    ((0 : Int) = 0 ∧ (3 : Nat) ≠ 0)
      ∧ get_image { ret := 0, len := 3, buf := some [137, 80, 78] }
          { ret := 0, len := 2, buf := some [1, 2] }
        = { ret := EXIT_SUCCESS, len := 3, buf := some [137, 80, 78], screenshot_calls := 0 } :=
  ⟨by decide,
    ((get_image_fallback { ret := 0, len := 3, buf := some [137, 80, 78] }
      { ret := 0, len := 2, buf := some [1, 2] }).1 (by decide)).1⟩

/-! ### Empty lines in the files read by `conf_parse.c` -/

theorem get_client_list_loop_stuck :
    ∀ (fuel : Nat) (lst : list2),
      get_client_list_loop fuel (ascii "\n# comment\nbob\n") (some (ascii "alice")) lst
        = .error .fuel := by
  intro fuel
  induction fuel with
  | zero => intro lst; rfl
  | succ n ih =>
    intro lst
    have step : get_client_list_loop (n + 1) (ascii "\n# comment\nbob\n") (some (ascii "alice")) lst
        = get_client_list_loop n (ascii "\n# comment\nbob\n") (some (ascii "alice"))
            (append lst (ascii "alice")) := rfl
    rw [step, ih]

/-- C8 (allow-list loading) at the specification's own example, a file with the lines
`alice`, an empty line, `# comment`, `bob`: `fscanf` stores nothing and consumes nothing at
the empty line, so the loop appends `alice` again on every pass and no number of passes
brings `get_client_list` to its `return`. -/
theorem get_client_list_blank_line (fuel : Nat) :
    get_client_list fuel allow_example (ascii "allow") = .error .fuel := by
  have hfile : allow_example (ascii "allow")
      = some { regular := true, content := ascii "alice\n\n# comment\nbob\n" } := by decide
  unfold get_client_list
  rw [hfile]
  cases fuel with
  | zero => rfl
  | succ n =>
    have step : get_client_list_loop (n + 1) (ascii "alice\n\n# comment\nbob\n") none []
        = get_client_list_loop n (ascii "\n# comment\nbob\n") (some (ascii "alice"))
            [ascii "alice"] := rfl
    simp only [step, get_client_list_loop_stuck]

theorem parse_conf_loop_stuck (cf : Nat) :
    ∀ (fuel : Nat) (cfg : config),
      parse_conf_loop conf_blank cf fuel (ascii "\nweb_port=4339\n") (some (ascii "app_port")) cfg
        = .error .fuel := by
  intro fuel
  induction fuel with
  | zero => intro cfg; rfl
  | succ n ih =>
    intro cfg
    have step : parse_conf_loop conf_blank cf (n + 1) (ascii "\nweb_port=4339\n")
          (some (ascii "app_port")) cfg
        = parse_conf_loop conf_blank cf n (ascii "\nweb_port=4339\n") (some (ascii "app_port"))
            cfg :=
      rfl
    rw [step, ih]

/-- C7 (ignored lines in `parse_conf`) at a file with an empty line between two settings:
without the empty line `parse_conf` returns both ports (within three passes); with it
`fscanf` stores nothing and consumes nothing at the empty line, the stale `line` is parsed
again on every pass, and no number of passes brings `parse_conf` to its `return`. -/
theorem parse_conf_blank_line :
    (∀ fuel cf, parse_conf fuel cf conf_blank (ascii "conf") = .error .fuel)
    ∧ (∀ fuel cf, parse_conf (fuel + 3) cf conf_dense (ascii "conf")
        = .ok { config_init with app_port := 4337, web_port := 4339 }) := by
  constructor
  · intro fuel cf
    have hfile : conf_blank (ascii "conf")
        = some { regular := true, content := ascii "app_port=4337\n\nweb_port=4339\n" } := by
      decide
    unfold parse_conf
    rw [hfile]
    cases fuel with
    | zero => rfl
    | succ n =>
      have step : parse_conf_loop conf_blank cf (n + 1)
            (ascii "app_port=4337\n\nweb_port=4339\n") none config_init
          = parse_conf_loop conf_blank cf n (ascii "\nweb_port=4339\n") (some (ascii "app_port"))
              { config_init with app_port := 4337 } := rfl
      simp only [step, parse_conf_loop_stuck]
  · intro fuel cf
    rfl

/-! ### `trim` -/

theorem trim_skip_spec (ws : List Nat) (c : Nat) (rest : List Nat) (p : Nat)
    (hws : ∀ b ∈ ws, is_blank b = true) (hc : is_blank c = false) :
    trim_skip (ws ++ c :: rest) p = .ok (p + ws.length) := by
  induction ws generalizing p with
  | nil => simp [trim_skip, hc]
  | cons w ws ih =>
    have hw : is_blank w = true := hws w (by simp)
    have hstep : trim_skip ((w :: ws) ++ c :: rest) p = trim_skip (ws ++ c :: rest) (p + 1) := by
      show trim_skip (w :: (ws ++ c :: rest)) p = _
      simp only [trim_skip, hw, if_true]
    rw [hstep, ih (p + 1) (fun b hb => hws b (by simp [hb]))]
    simp only [List.length_cons]
    congr 1
    omega

theorem trim_copy_spec :
    ∀ (R A G X : List Nat) (fuel : Nat), (∀ b ∈ R, b ≠ 0) → R.length < fuel →
      trim_copy fuel (A ++ (G ++ (R ++ 0 :: X))) A.length (A.length + G.length)
        = .ok (A ++ (R ++ ((G ++ R).drop R.length ++ 0 :: X)), A.length + R.length) := by
  intro R
  induction R with
  | nil =>
    intro A G X fuel _ hfuel
    obtain ⟨f, rfl⟩ : ∃ f, fuel = f + 1 := ⟨fuel - 1, by simp at hfuel; omega⟩
    have hl : load (A ++ (G ++ ([] ++ 0 :: X))) (A.length + G.length) = .ok 0 := by
      have := load_at (A ++ G) 0 X
      simpa using this
    simp only [List.nil_append] at hl
    simp [trim_copy, hl]
  | cons r R ih =>
    intro A G X fuel hnz hfuel
    obtain ⟨f, rfl⟩ : ∃ f, fuel = f + 1 := ⟨fuel - 1, by simp at hfuel; omega⟩
    have hr : r ≠ 0 := hnz r (by simp)
    have hnz1 : ∀ b ∈ R, b ≠ 0 := fun b hb => hnz b (by simp [hb])
    have hl : load (A ++ (G ++ ((r :: R) ++ 0 :: X))) (A.length + G.length) = .ok r := by
      have := load_at (A ++ G) r (R ++ 0 :: X)
      simpa using this
    simp only [trim_copy, hl, hr, if_false]
    cases G with
    | nil =>
      have hs : store (A ++ ([] ++ ((r :: R) ++ 0 :: X))) A.length r
          = .ok ((A ++ [r]) ++ ([] ++ (R ++ 0 :: X))) := by
        have := store_at A r r (R ++ 0 :: X)
        simpa using this
      rw [hs]
      simp only
      have h := ih (A ++ [r]) [] X f hnz1 (by simp at hfuel; omega)
      simp only [List.length_append, List.length_cons, List.length_nil, Nat.add_zero] at h
      simp only [List.length_nil, Nat.add_zero]
      rw [h]
      simp
      omega
    | cons g G =>
      have hs : store (A ++ ((g :: G) ++ ((r :: R) ++ 0 :: X))) A.length r
          = .ok ((A ++ [r]) ++ ((G ++ [r]) ++ (R ++ 0 :: X))) := by
        have := store_at A g r (G ++ (r :: R ++ 0 :: X))
        simpa using this
      rw [hs]
      simp only
      have h := ih (A ++ [r]) (G ++ [r]) X f hnz1 (by simp at hfuel; omega)
      simp only [List.length_append, List.length_cons, List.length_nil] at h
      have hidx : A.length + (G.length + 1) + 1 = A.length + (0 + 1) + (G.length + (0 + 1)) := by
        omega
      simp only [List.length_cons]
      rw [hidx, h]
      simp
      omega

theorem trim_back_spec (B : List Nat) (c : Nat) :
    ∀ (W Z : List Nat), (∀ b ∈ W, is_blank b = true) → is_blank c = false →
      trim_back (B ++ c :: (W ++ Z)) (B.length + W.length)
        = .ok (B ++ c :: (List.replicate W.length 0 ++ Z)) := by
  intro W
  induction W using List.reverseRecOn with
  | nil =>
    intro Z _ hc
    have hl : load (B ++ c :: Z) B.length = .ok c := load_at B c _
    cases hB : B.length with
    | zero =>
      rw [hB] at hl
      simp [trim_back, hl, hc]
    | succ n =>
      rw [hB] at hl
      simp [trim_back, hl, hc]
  | append_singleton W w ih =>
    intro Z hW hc
    have hw : is_blank w = true := hW w (by simp)
    have hidx : B.length + (W ++ [w]).length = (B.length + W.length) + 1 := by simp; omega
    have hmem : B ++ c :: ((W ++ [w]) ++ Z) = (B ++ c :: W) ++ w :: Z := by simp
    have hlen : (B ++ c :: W).length = B.length + W.length + 1 := by simp; omega
    have hl : load ((B ++ c :: W) ++ w :: Z) (B.length + W.length + 1) = .ok w := by
      rw [← hlen]; exact load_at _ _ _
    have hs : store ((B ++ c :: W) ++ w :: Z) (B.length + W.length + 1) 0
        = .ok ((B ++ c :: W) ++ 0 :: Z) := by
      rw [← hlen]; exact store_at _ _ _ _
    rw [hidx, hmem]
    simp only [trim_back, hl, hw, if_true, hs]
    have h := ih (0 :: Z) (fun b hb => hW b (by simp [hb])) hc
    have hmem2 : (B ++ c :: W) ++ 0 :: Z = B ++ c :: (W ++ 0 :: Z) := by simp
    rw [hmem2, h]
    simp [List.replicate_succ']

theorem cstring_append_zero (s Z : List Nat) (hs : ∀ b ∈ s, b ≠ 0) : cstring (s ++ 0 :: Z) = s := by
  unfold cstring
  induction s with
  | nil => simp
  | cons d s ih =>
    have hd : (d != 0) = true := by simpa using hs d (by simp)
    simp [List.takeWhile, hd, ih (fun b hb => hs b (by simp [hb]))]

theorem is_blank_ne_zero (b : Nat) (h : is_blank b = true) : b ≠ 0 := by
  unfold is_blank at h
  simp at h
  omega

/-- Function `trim` on a string made of blanks, a body that neither starts nor ends with a blank, and
blanks again: the array then holds the body. -/
theorem trim_spec (ws1 B : List Nat) (c : Nat) (ws2 : List Nat)
    (h1 : ∀ b ∈ ws1, is_blank b = true) (h2 : ∀ b ∈ ws2, is_blank b = true)
    (hB : ∀ b ∈ B, b ≠ 0) (hc0 : c ≠ 0) (hc : is_blank c = false)
    (hhead : ∀ b, (B ++ [c]).head? = some b → is_blank b = false) :
    ∃ m, trim (ws1 ++ (B ++ c :: ws2) ++ [0]) = .ok m ∧ cstring m = B ++ [c] := by
  have hR : ∀ b ∈ B ++ c :: ws2, b ≠ 0 := by
    intro b hb
    simp only [List.mem_append, List.mem_cons] at hb
    rcases hb with hb | hb | hb
    · exact hB b hb
    · rw [hb]; exact hc0
    · exact is_blank_ne_zero b (h2 b hb)
  -- first loop
  have hmem : ws1 ++ (B ++ c :: ws2) ++ [0] = ws1 ++ (B ++ c :: ws2 ++ [0]) := by simp
  rw [hmem]
  have hskip : trim_skip (ws1 ++ (B ++ c :: ws2 ++ [0])) 0 = .ok ws1.length := by
    cases B with
    | nil =>
      have := trim_skip_spec ws1 c (ws2 ++ [0]) 0 h1 hc
      simpa using this
    | cons b B =>
      have hb : is_blank b = false := hhead b (by simp)
      have := trim_skip_spec ws1 b (B ++ c :: ws2 ++ [0]) 0 h1 hb
      simpa using this
  -- second loop
  have hcopy := trim_copy_spec (B ++ c :: ws2) [] ws1 []
    ((ws1 ++ (B ++ c :: ws2 ++ [0])).length + 1) hR (by simp; omega)
  simp only [List.nil_append, List.length_nil, Nat.zero_add] at hcopy
  unfold trim
  rw [hskip]
  simp only
  rw [hcopy]
  simp only
  -- `*p1 = 0`
  obtain ⟨z, Z, hZ⟩ : ∃ z Z, (ws1 ++ (B ++ c :: ws2)).drop (B ++ c :: ws2).length ++ [0] = z :: Z := by
    cases h : (ws1 ++ (B ++ c :: ws2)).drop (B ++ c :: ws2).length ++ [0] with
    | nil => simp at h
    | cons z Z => exact ⟨z, Z, rfl⟩
  rw [hZ]
  have hst := store_at (B ++ c :: ws2) z 0 Z
  rw [hst]
  simp only
  have hlen : (B ++ c :: ws2).length = (B.length + ws2.length) + 1 := by simp; omega
  rw [hlen]
  simp only
  have hback := trim_back_spec B c ws2 (0 :: Z) h2 hc
  have hmem2 : (B ++ c :: ws2) ++ 0 :: Z = B ++ c :: (ws2 ++ 0 :: Z) := by simp
  rw [hmem2, hback]
  refine ⟨_, rfl, ?_⟩
  obtain ⟨Y, hY⟩ : ∃ Y, List.replicate ws2.length 0 ++ 0 :: Z = 0 :: Y := by
    cases ws2.length with
    | zero => exact ⟨Z, rfl⟩
    | succ n => exact ⟨List.replicate n 0 ++ 0 :: Z, by simp [List.replicate_succ]⟩
  have hzero : B ++ c :: (List.replicate ws2.length 0 ++ 0 :: Z) = (B ++ [c]) ++ 0 :: Y := by
    rw [hY]; simp
  rw [hzero]
  apply cstring_append_zero
  intro b hb
  simp only [List.mem_append, List.mem_singleton] at hb
  rcases hb with hb | hb
  · exact hB b hb
  · rw [hb]; exact hc0

/-! ### Port validation in `parse_line` -/

theorem strchr_from_spec (c : Nat) (pre rest : List Nat) (p : Nat)
    (h : ∀ b ∈ pre, b ≠ c ∧ b ≠ 0) :
    strchr_from c (pre ++ c :: rest) p = some (p + pre.length) := by
  induction pre generalizing p with
  | nil => simp [strchr_from]
  | cons b pre ih =>
    have hb := h b (by simp)
    have hstep : strchr_from c ((b :: pre) ++ c :: rest) p = strchr_from c (pre ++ c :: rest) (p + 1) := by
      show strchr_from c (b :: (pre ++ c :: rest)) p = _
      simp only [strchr_from, hb.1, hb.2, if_false]
    rw [hstep, ih (p + 1) (fun x hx => h x (by simp [hx]))]
    simp only [List.length_cons]
    congr 1
    omega

theorem foldl_decimal (digits : List Nat) :
    digits.foldl (fun acc d => 10 * acc + (d - 48)) 0 = decimal_value digits := by
  unfold decimal_value
  induction digits using List.reverseRecOn with
  | nil => simp
  | append_singleton ds d ih =>
    rw [List.foldl_append, List.foldl_cons, List.foldl_nil, ih]
    simp [Nat.ofDigits_cons]
    omega

theorem is_digit_facts (d : Nat) (h : is_digit d = true) :
    d ≠ 0 ∧ is_blank d = false ∧ isspace d = false ∧ d ≠ 45 ∧ d ≠ 43 := by
  unfold is_digit at h
  simp only [Bool.and_eq_true, decide_eq_true_eq] at h
  refine ⟨by omega, ?_, ?_, by omega, by omega⟩
  · unfold is_blank; simp; omega
  · unfold isspace; simp; omega

/-- Function `strtol` on a sign and digits. -/
theorem strtol_spec (sign digits : List Nat) (hs : sign = [] ∨ sign = [45] ∨ sign = [43])
    (hne : digits ≠ []) (hd : ∀ d ∈ digits, is_digit d = true) :
    strtol (sign ++ digits)
      = (let r : Int := if sign = [45] then -(decimal_value digits : Int) else (decimal_value digits : Int)
         if r > LONG_MAX then LONG_MAX else if r < LONG_MIN then LONG_MIN else r) := by
  obtain ⟨d0, ds, rfl⟩ : ∃ d0 ds, digits = d0 :: ds := by
    cases digits with
    | nil => exact absurd rfl hne
    | cons d0 ds => exact ⟨d0, ds, rfl⟩
  have h0 := is_digit_facts d0 (hd d0 (by simp))
  have htw : (d0 :: ds).takeWhile is_digit = d0 :: ds := by
    rw [List.takeWhile_eq_self_iff]
    exact hd
  rcases hs with rfl | rfl | rfl
  · have hdw : ([] ++ d0 :: ds).dropWhile isspace = d0 :: ds := by
      simp [List.dropWhile, h0.2.2.1]
    unfold strtol
    simp only [hdw, List.head?_cons, Option.some.injEq, h0.2.2.2.1, h0.2.2.2.2, or_self, if_false,
      htw, foldl_decimal]
    simp
  · have hdw : ([45] ++ d0 :: ds).dropWhile isspace = 45 :: d0 :: ds := by
      simp [List.dropWhile, isspace]
    unfold strtol
    simp only [hdw, List.head?_cons, true_or, if_true, List.drop_succ_cons, List.drop_zero, htw,
      foldl_decimal]
  · have hdw : ([43] ++ d0 :: ds).dropWhile isspace = 43 :: d0 :: ds := by
      simp [List.dropWhile, isspace]
    unfold strtol
    simp only [hdw, List.head?_cons, Option.some.injEq, or_true, if_true, List.drop_succ_cons,
      List.drop_zero, htw, foldl_decimal]
    simp

theorem port_key_facts (k : PortKey) :
    (∀ b ∈ k.name, b ≠ 61 ∧ b ≠ 0) ∧ sscanf_s 255 k.name = some k.name := by
  cases k <;> exact ⟨by decide, by decide⟩

/-- Function `parse_line` on `key=value` for a port key and a value text that denotes `n`, from any
record. -/
theorem parse_line_port_any (fuel : Nat) (files : Files) (k : PortKey) (v : List Nat) (n : Int)
    (cfg : config) (h : parses_to v n) :
    parse_line fuel files (k.name ++ [61] ++ v) cfg
      = .ok (k.name, if 1 ≤ n ∧ n ≤ 65535 then k.set cfg n.toNat else cfg) := by
  obtain ⟨ws1, ws2, sign, digits, rfl, h1, h2, hs, hne, hd, rfl⟩ := h
  have hk := port_key_facts k
  -- the separator
  have heq : strchr_from 61 ((k.name ++ [61] ++ (ws1 ++ (sign ++ digits) ++ ws2)) ++ [0]) 0
      = some k.name.length := by
    have := strchr_from_spec 61 k.name ((ws1 ++ (sign ++ digits) ++ ws2) ++ [0]) 0 hk.1
    simpa using this
  have hdrop : (k.name ++ [61] ++ (ws1 ++ (sign ++ digits) ++ ws2)).drop (k.name.length + 1)
      = ws1 ++ (sign ++ digits) ++ ws2 := by
    have : (k.name ++ [61]).length = k.name.length + 1 := by simp
    rw [← this, List.drop_left]
  have htake : (k.name ++ [61] ++ (ws1 ++ (sign ++ digits) ++ ws2)).take k.name.length = k.name := by
    rw [List.append_assoc, List.take_left]
  -- the trimmed value
  obtain ⟨B, c, hBc⟩ : ∃ B c, sign ++ digits = B ++ [c] := by
    have hne2 : sign ++ digits ≠ [] := by simp [hne]
    exact ⟨(sign ++ digits).dropLast, (sign ++ digits).getLast hne2,
      (List.dropLast_append_getLast hne2).symm⟩
  have hbody : ∀ b ∈ sign ++ digits, b ≠ 0 ∧ is_blank b = false := by
    intro b hb
    rcases List.mem_append.1 hb with hb | hb
    · rcases hs with rfl | rfl | rfl
      · cases hb
      · simp only [List.mem_singleton] at hb; subst hb; exact ⟨by decide, by decide⟩
      · simp only [List.mem_singleton] at hb; subst hb; exact ⟨by decide, by decide⟩
    · have := is_digit_facts b (hd b hb)
      exact ⟨this.1, this.2.1⟩
  have hB : ∀ b ∈ B, b ≠ 0 := fun b hb => (hbody b (by rw [hBc]; simp [hb])).1
  have hc := hbody c (by rw [hBc]; simp)
  have hhead : ∀ b, (B ++ [c]).head? = some b → is_blank b = false := by
    intro b hb
    have : b ∈ B ++ [c] := List.mem_of_mem_head? hb
    exact (hbody b (by rw [hBc]; exact this)).2
  obtain ⟨m, hm, hcs⟩ := trim_spec ws1 B c ws2 h1 h2 hB hc.1 hc.2 hhead
  have hval : ws1 ++ (sign ++ digits) ++ ws2 ++ [0] = ws1 ++ (B ++ c :: ws2) ++ [0] := by
    rw [hBc]; simp
  rw [← hBc] at hcs
  have hstr := strtol_spec sign digits hs hne hd
  simp only at hstr
  -- the range test
  have hrange : (0 < strtol (sign ++ digits) ∧ strtol (sign ++ digits) < 65536)
      ↔ (1 ≤ (if sign = [45] then -(decimal_value digits : Int) else (decimal_value digits : Int))
          ∧ (if sign = [45] then -(decimal_value digits : Int) else (decimal_value digits : Int)) ≤ 65535) := by
    rw [hstr]
    unfold LONG_MAX LONG_MIN
    generalize (if sign = [45] then -(decimal_value digits : Int) else (decimal_value digits : Int)) = r
    split_ifs <;> constructor <;> intro h <;> omega
  have hvalue : (1 ≤ (if sign = [45] then -(decimal_value digits : Int) else (decimal_value digits : Int))
          ∧ (if sign = [45] then -(decimal_value digits : Int) else (decimal_value digits : Int)) ≤ 65535)
      → (strtol (sign ++ digits)).toNat % 65536
        = (if sign = [45] then -(decimal_value digits : Int) else (decimal_value digits : Int)).toNat := by
    rw [hstr]
    unfold LONG_MAX LONG_MIN
    generalize (if sign = [45] then -(decimal_value digits : Int) else (decimal_value digits : Int)) = r
    intro h
    split_ifs <;> omega
  unfold parse_line
  rw [heq]
  simp only
  rw [hdrop, htake, hval, hm]
  simp only
  rw [hk.2, hcs]
  simp only
  by_cases hin : (1 ≤ (if sign = [45] then -(decimal_value digits : Int) else (decimal_value digits : Int))
          ∧ (if sign = [45] then -(decimal_value digits : Int) else (decimal_value digits : Int)) ≤ 65535)
  · have hin2 := hrange.2 hin
    have hv := hvalue hin
    rw [if_pos hin]
    cases k
    · have e1 : PortKey.app_port.name = ascii "app_port" := rfl
      simp only [e1, if_true, if_pos hin2, hv, PortKey.set]
    · have e1 : PortKey.app_port_secure.name = ascii "app_port_secure" := rfl
      have e2 : ascii "app_port_secure" ≠ ascii "app_port" := by decide
      simp only [e1, if_true, if_neg e2, if_pos hin2, hv, PortKey.set]
    · have e1 : PortKey.web_port.name = ascii "web_port" := rfl
      have e2 : ascii "web_port" ≠ ascii "app_port" := by decide
      have e3 : ascii "web_port" ≠ ascii "app_port_secure" := by decide
      simp only [e1, if_true, if_neg e2, if_neg e3, if_pos hin2, hv, PortKey.set]
  · have hin2 : ¬ (0 < strtol (sign ++ digits) ∧ strtol (sign ++ digits) < 65536) :=
      fun h => hin (hrange.1 h)
    rw [if_neg hin]
    cases k
    · have e1 : PortKey.app_port.name = ascii "app_port" := rfl
      simp only [e1, if_true, if_neg hin2]
    · have e1 : PortKey.app_port_secure.name = ascii "app_port_secure" := rfl
      have e2 : ascii "app_port_secure" ≠ ascii "app_port" := by decide
      simp only [e1, if_true, if_neg e2, if_neg hin2]
    · have e1 : PortKey.web_port.name = ascii "web_port" := rfl
      have e2 : ascii "web_port" ≠ ascii "app_port" := by decide
      have e3 : ascii "web_port" ≠ ascii "app_port_secure" := by decide
      simp only [e1, if_true, if_neg e2, if_neg e3, if_neg hin2]

/-- C6: port validation in `parse_line`. For each of the keys `app_port`, `app_port_secure`
and `web_port` and every value text that parses (base 10, after trimming) to an integer `n`,
`parse_line` on `key=value` and a freshly initialised record sets the field of the key to `n`
when `1 <= n <= 65535` and leaves the record as initialised (the field 0) when `n <= 0` or
`n >= 65536`; in both cases every other field is unchanged. -/
theorem parse_line_port_validation (fuel : Nat) (files : Files) (k : PortKey) (v : List Nat)
    (n : Int) (h : parses_to v n) :
    ((1 ≤ n ∧ n ≤ 65535) →
      parse_line fuel files (k.name ++ [61] ++ v) config_init
        = .ok (k.name, k.set config_init n.toNat))
    ∧ ((n ≤ 0 ∨ 65536 ≤ n) →
      parse_line fuel files (k.name ++ [61] ++ v) config_init = .ok (k.name, config_init)) := by
  have key := parse_line_port_any fuel files k v n config_init h
  constructor
  · intro hin
    rw [key, if_pos hin]
  · intro hout
    have : ¬ (1 ≤ n ∧ n ≤ 65535) := by omega
    rw [key, if_neg this]

theorem parses_to_example : parses_to (ascii " 65535 ") 65535 :=
  ⟨[32], [32], [], ascii "65535", by decide, by decide, by decide, Or.inl rfl, by decide,
    by decide, by simp [decimal_value, ascii, Nat.ofDigits]⟩

theorem parse_line_port_validation_witness :
    parses_to (ascii " 65535 ") 65535
      ∧ parse_line 0 (files_of []) (ascii "web_port= 65535 ") config_init
        = .ok (ascii "web_port", { config_init with web_port := 65535 }) :=
  ⟨parses_to_example,
    (parse_line_port_validation 0 (files_of []) PortKey.web_port (ascii " 65535 ") 65535
      parses_to_example).1 (by decide)⟩

/-! ### Clipboard file lists -/

theorem offers_clipboard_with (payload : List Nat) : offers (clipboard_with payload) payload :=
  ⟨_, rfl, by decide, by decide, rfl⟩

theorem intent_facts (intent : List Nat) (h : intent = ascii "copy" ∨ intent = ascii "cut") :
    (∀ b ∈ intent, b ≠ 10 ∧ b ≠ 0) ∧ intent ≠ [] := by
  rcases h with rfl | rfl <;> exact ⟨by decide, by decide⟩

theorem get_copied_files_as_str_spec (xclip : Xclip) (intent : List Nat)
    (entries : List (List Nat)) (hoff : offers xclip (payload_of intent entries))
    (hint : intent = ascii "copy" ∨ intent = ascii "cut") :
    get_copied_files_as_str xclip = some (intent ++ 0 :: (join_lines entries ++ [0])) := by
  obtain ⟨targets, hT, hTne, hfound, hP⟩ := hoff
  have hi := intent_facts intent hint
  have hTlen : ¬ targets.length ≤ 0 := by
    cases targets with
    | nil => exact absurd rfl hTne
    | cons t ts => simp
  have hPlen : ¬ (payload_of intent entries).length ≤ 0 := by
    simp [payload_of]
  have hchr : strchr_from 10 (payload_of intent entries ++ [0]) 0 = some intent.length := by
    have := strchr_from_spec 10 intent (join_lines entries ++ [0]) 0 hi.1
    simpa [payload_of] using this
  have hset : (payload_of intent entries ++ [0]).set intent.length 0
      = intent ++ 0 :: (join_lines entries ++ [0]) := by
    simp [payload_of, List.set_append]
  have hcs : cstring (intent ++ 0 :: (join_lines entries ++ [0])) = intent :=
    cstring_append_zero intent _ (fun b hb => (hi.1 b hb).2)
  unfold get_copied_files_as_str
  rw [hT]
  simp only [hTlen, if_false, hfound, not_true_eq_false, hP, hPlen, hchr, hset, hcs]
  rcases hint with rfl | rfl
  · simp
  · simp

theorem split_entries_line (e : List Nat) (rest : List Nat) (he : ∀ b ∈ e, b ≠ 0 ∧ b ≠ 10) :
    split_entries (e ++ rest)
      = match split_entries rest with
        | .error err => .error err
        | .ok (cnt, rest1) => .ok (cnt, e ++ rest1) := by
  induction e with
  | nil =>
    simp only [List.nil_append]
    cases split_entries rest with
    | error err => rfl
    | ok r => rfl
  | cons b e ih =>
    have hb := he b (by simp)
    have ih1 := ih (fun x hx => he x (by simp [hx]))
    show split_entries (b :: (e ++ rest)) = _
    simp only [split_entries, hb.1, hb.2, if_false, ih1]
    cases split_entries rest with
    | error err => rfl
    | ok r => rfl

theorem split_entries_spec (entries : List (List Nat)) (hne : entries ≠ [])
    (hpl : plain entries) :
    split_entries (join_lines entries ++ [0]) = .ok (entries.length - 1, laid_out entries) := by
  induction entries with
  | nil => exact absurd rfl hne
  | cons e es ih =>
    have he := hpl e (by simp)
    cases es with
    | nil =>
      have := split_entries_line e [0] he
      simpa [join_lines, laid_out, split_entries] using this
    | cons e2 es =>
      have ih1 := ih (by simp) (fun x hx => hpl x (by simp [hx]))
      have hstep : split_entries (10 :: (join_lines (e2 :: es) ++ [0]))
          = .ok ((e2 :: es).length - 1 + 1, 0 :: laid_out (e2 :: es)) := by
        simp only [split_entries, ih1]
        simp
      have := split_entries_line e (10 :: (join_lines (e2 :: es) ++ [0])) he
      rw [hstep] at this
      simp only at this
      have hj : join_lines (e :: e2 :: es) ++ [0] = e ++ 10 :: (join_lines (e2 :: es) ++ [0]) := by
        simp [join_lines]
      rw [hj, this]
      simp [laid_out]

theorem percent_decode_length (R : List Nat) :
    ∀ D, percent_decode R = some D → D.length ≤ R.length := by
  induction R using escapes_ok.induct with
  | case1 => intro D h; simp [percent_decode] at h; subst h; simp
  | case2 a b rest ih =>
    intro D h
    rw [percent_decode_esc] at h
    split_ifs at h
    cases hp : percent_decode rest with
    | none => simp [hp] at h
    | some D1 =>
      simp [hp] at h
      subst h
      have := ih D1 hp
      simp; omega
  | case3 rest hrest =>
    intro D h
    cases rest with
    | nil => rw [percent_decode_cut1] at h; cases h
    | cons a rest =>
      cases rest with
      | nil => rw [percent_decode_cut2] at h; cases h
      | cons b rest => exact absurd rfl (hrest a b rest)
  | case4 c rest hc ih =>
    intro D h
    rw [percent_decode_lit c rest hc] at h
    cases hp : percent_decode rest with
    | none => simp [hp] at h
    | some D1 =>
      simp [hp] at h
      subst h
      have := ih D1 hp
      simp; omega

theorem takeWhile_append_zero (D Y : List Nat) :
    (D ++ 0 :: Y).takeWhile (fun b => b != 0) = cstring D := by
  unfold cstring
  induction D with
  | nil => simp
  | cons d D ih =>
    by_cases hd : d = 0
    · subst hd; simp
    · have hd2 : (d != 0) = true := by simpa using hd
      simp [List.takeWhile, hd2, ih]

theorem cstr_behind (pre D Y : List Nat) :
    cstr (pre ++ (D ++ 0 :: Y)) pre.length = .ok (cstring D) := by
  simp [cstr, takeWhile_append_zero]

/-- What one pass of either file-list loop sees at an entry that is not exactly
`file://`. -/
theorem entry_step (pre e post : List Nat) (he : ∀ b ∈ e, b ≠ 0) (hbare : e ≠ ascii "file://") :
    strlen (pre ++ (e ++ 0 :: post)) pre.length = .ok e.length
    ∧ (decode_entry e = none →
        ∃ m1, url_decode (pre ++ (e ++ 0 :: post)) pre.length = .ok (EXIT_FAILURE, m1))
    ∧ (∀ path, decode_entry e = some path →
        ∃ pre1 : List Nat, pre1.length = pre.length + (e.length + 1)
          ∧ url_decode (pre ++ (e ++ 0 :: post)) pre.length = .ok (EXIT_SUCCESS, pre1 ++ post)
          ∧ cstr (pre1 ++ post) pre.length = .ok path) := by
  refine ⟨?_, ?_, ?_⟩
  · simp [strlen, cstr_at pre e post he]
  · intro hdec
    unfold decode_entry at hdec
    cases hp : (ascii "file://").isPrefixOf e with
    | false => exact ⟨_, url_decode_no_scheme pre e post hp⟩
    | true =>
      obtain ⟨R, rfl⟩ := List.isPrefixOf_iff_prefix.1 hp
      have hR : R ≠ [] := by
        intro h; apply hbare; rw [h]; simp
      have hRnz : ∀ b ∈ R, b ≠ 0 := fun b hb => he b (by simp [hb])
      have hd7 : (ascii "file://" ++ R).drop 7 = R := by simp [ascii_file]
      rw [hp, hd7] at hdec
      simp only [if_true, Option.map_eq_none'] at hdec
      obtain ⟨m1, hm1⟩ := (url_decode_spec pre R post hR hRnz).2 hdec
      exact ⟨m1, by simpa using hm1⟩
  · intro path hdec
    unfold decode_entry at hdec
    cases hp : (ascii "file://").isPrefixOf e with
    | false => rw [hp] at hdec; simp at hdec
    | true =>
      obtain ⟨R, rfl⟩ := List.isPrefixOf_iff_prefix.1 hp
      have hR : R ≠ [] := by
        intro h; apply hbare; rw [h]; simp
      have hRnz : ∀ b ∈ R, b ≠ 0 := fun b hb => he b (by simp [hb])
      have hd7 : (ascii "file://" ++ R).drop 7 = R := by simp [ascii_file]
      rw [hp, hd7] at hdec
      simp only [if_true] at hdec
      cases hD : percent_decode R with
      | none => rw [hD] at hdec; simp at hdec
      | some D =>
        rw [hD] at hdec
        simp only [Option.map_some', Option.some.injEq] at hdec
        have hlen := percent_decode_length R D hD
        have hm := (url_decode_spec pre R post hR hRnz).1 D hD
        refine ⟨pre ++ (D ++ 0 :: ((ascii "file://" ++ R).drop (D.length + 1) ++ [0])), ?_, ?_, ?_⟩
        · simp [ascii_file]; omega
        · rw [List.append_assoc, hm]; simp
        · have := cstr_behind pre D ((ascii "file://" ++ R).drop (D.length + 1) ++ [0] ++ post)
          rw [← hdec, ← this]
          simp

theorem get_copied_files_loop_spec (fs : FS) :
    ∀ (es : List (List Nat)) (pre : List Nat) (lst : list2), plain es → no_bare_scheme es →
      get_copied_files_loop fs es.length (pre ++ laid_out es) pre.length lst
        = .ok (lst ++ copied_files fs es) := by
  intro es
  induction es with
  | nil => intro pre lst _ _; simp [get_copied_files_loop, copied_files]
  | cons e es ih =>
    intro pre lst hpl hnb
    have he : ∀ b ∈ e, b ≠ 0 := fun b hb => (hpl e (by simp) b hb).1
    obtain ⟨hlen, hfail, hok⟩ := entry_step pre e (laid_out es) he (hnb e (by simp))
    have hpl1 : plain es := fun x hx => hpl x (by simp [hx])
    have hnb1 : no_bare_scheme es := fun x hx => hnb x (by simp [hx])
    simp only [List.length_cons, laid_out, get_copied_files_loop, hlen]
    cases hd : decode_entry e with
    | none =>
      obtain ⟨m1, hm1⟩ := hfail hd
      simp [hm1, copied_files, hd]
    | some path =>
      obtain ⟨pre1, hpre1, hm1, hcs⟩ := hok path hd
      have hne : EXIT_SUCCESS ≠ EXIT_FAILURE := by decide
      simp only [hm1, hne, if_false, hcs, ← hpre1, copied_files, hd]
      cases hst : fs.stat path with
      | none => simp [ih pre1 lst hpl1 hnb1]
      | some kind =>
        cases kind with
        | reg => simp [ih pre1 _ hpl1 hnb1, append]
        | dir => simp [ih pre1 lst hpl1 hnb1]
        | other => simp [ih pre1 lst hpl1 hnb1]

/-- Supporting fact for C3: on every payload with intent `copy` or `cut` whose entries are
lines of a NUL-free text, none of them the bare scheme `file://`, `get_copied_files`
returns exactly the files the specification describes. -/
theorem get_copied_files_spec (xclip : Xclip) (fs : FS) (intent : List Nat)
    (entries : List (List Nat)) (hoff : offers xclip (payload_of intent entries))
    (hint : intent = ascii "copy" ∨ intent = ascii "cut") (hne : entries ≠ [])
    (hpl : plain entries) (hnb : no_bare_scheme entries) :
    get_copied_files xclip fs = .ok (some (copied_files fs entries)) := by
  have hi := intent_facts intent hint
  have hstr := get_copied_files_as_str_spec xclip intent entries hoff hint
  have hlen : strlen (intent ++ 0 :: (join_lines entries ++ [0])) 0 = .ok intent.length := by
    have := cstr_at [] intent (join_lines entries ++ [0]) (fun b hb => (hi.1 b hb).2)
    simp only [List.nil_append, List.length_nil] at this
    simp [strlen, this]
  have hsplit : split_entries_at (intent ++ 0 :: (join_lines entries ++ [0])) (intent.length + 1)
      = .ok (entries.length - 1, (intent ++ [0]) ++ laid_out entries) := by
    have hdrop : (intent ++ 0 :: (join_lines entries ++ [0])).drop (intent.length + 1)
        = join_lines entries ++ [0] := by
      have : intent ++ 0 :: (join_lines entries ++ [0]) = (intent ++ [0]) ++ (join_lines entries ++ [0]) := by
        simp
      rw [this]
      have h2 : (intent ++ [0]).length = intent.length + 1 := by simp
      rw [← h2, List.drop_left]
    have htake : (intent ++ 0 :: (join_lines entries ++ [0])).take (intent.length + 1)
        = intent ++ [0] := by
      have : intent ++ 0 :: (join_lines entries ++ [0]) = (intent ++ [0]) ++ (join_lines entries ++ [0]) := by
        simp
      rw [this]
      have h2 : (intent ++ [0]).length = intent.length + 1 := by simp
      rw [← h2, List.take_left]
    unfold split_entries_at
    rw [hdrop, split_entries_spec entries hne hpl, htake]
  have hcnt : 1 + (entries.length - 1) = entries.length := by
    cases entries with
    | nil => exact absurd rfl hne
    | cons e es => simp; omega
  have hloop := get_copied_files_loop_spec fs entries (intent ++ [0]) [] hpl hnb
  have hl1 : (intent ++ [0]).length = intent.length + 1 := by simp
  rw [hl1] at hloop
  unfold get_copied_files
  rw [hstr]
  simp only [hlen, hsplit, hcnt, hloop, List.nil_append]

/-! ### `recurse_dir` on an arbitrary file system -/

theorem recurse_dir_entries_total (fs : FS) (recurse : List Nat → list2 → Except Fault list2)
    (pre : List Nat) (hpre : pre ≠ [])
    (hrec : ∀ p, p ≠ [] → ∃ l, ∀ lst, recurse p lst = .ok (lst ++ l)) :
    ∀ names : List (List Nat), ∃ l, ∀ lst,
      recurse_dir_entries fs recurse pre names lst = .ok (lst ++ l) := by
  intro names
  induction names with
  | nil => exact ⟨[], fun lst => by simp [recurse_dir_entries]⟩
  | cons name names ih =>
    obtain ⟨l, hl⟩ := ih
    by_cases hdot : is_dot name = true
    · exact ⟨l, fun lst => by simp only [recurse_dir_entries, hdot, if_true, hl]⟩
    · have hdot : is_dot name = false := by simpa using hdot
      cases hk : fs.lstat (pre ++ name) with
      | none =>
        exact ⟨l, fun lst => by simp [recurse_dir_entries, hdot, hk, hl]⟩
      | some kind =>
        cases kind with
        | reg =>
          refine ⟨(pre ++ name) :: l, fun lst => ?_⟩
          simp only [recurse_dir_entries, hdot, Bool.false_eq_true, if_false, hk, hl, append]
          simp
        | dir =>
          obtain ⟨l1, hl1⟩ := hrec (pre ++ name) (by simp [hpre])
          refine ⟨l1 ++ l, fun lst => ?_⟩
          simp only [recurse_dir_entries, hdot, Bool.false_eq_true, if_false, hk, hl1, hl]
          simp
        | other =>
          exact ⟨l, fun lst => by simp [recurse_dir_entries, hdot, hk, hl]⟩

theorem recurse_dir_fuel_total (fs : FS) (h0 : fs.opendir [] = none) :
    ∀ (fuel d : Nat) (path : List Nat), 1 ≤ fuel → RECURSE_DEPTH_MAX + 2 ≤ fuel + d →
      ∃ l, ∀ lst, recurse_dir_fuel fs fuel path lst d = .ok (lst ++ l) := by
  intro fuel
  induction fuel with
  | zero => intro d path h1 _; omega
  | succ f ih =>
    intro d path _ hf
    by_cases hdeep : d > RECURSE_DEPTH_MAX
    · exact ⟨[], fun lst => by simp [recurse_dir_fuel, hdeep]⟩
    · cases hop : fs.opendir path with
      | none => exact ⟨[], fun lst => by simp [recurse_dir_fuel, hdeep, hop]⟩
      | some names =>
        have hne : path ≠ [] := by
          intro h; rw [h, h0] at hop; cases hop
        cases hlast : path.getLast? with
        | none => exact absurd (List.getLast?_eq_none_iff.1 hlast) hne
        | some last =>
          have hrec : ∀ p, p ≠ [] →
              ∃ l, ∀ lst, (fun p l => recurse_dir_fuel fs f p l (d + 1)) p lst = .ok (lst ++ l) :=
            fun p _ => ih (d + 1) p (by unfold RECURSE_DEPTH_MAX at *; omega) (by omega)
          obtain ⟨l, hl⟩ := recurse_dir_entries_total fs _ (with_sep path) (with_sep_ne_nil path)
            hrec names
          refine ⟨l, fun lst => ?_⟩
          simp only [recurse_dir_fuel, hdeep, if_false, hop, hlast]
          rw [with_sep_of_last _ _ hlast]
          exact hl lst

/-- On a file system where the empty path is no directory, `recurse_dir` returns, keeps the
list it was given and appends what it finds. -/
theorem recurse_dir_total (fs : FS) (h0 : fs.opendir [] = none) (path : List Nat) (lst : list2) :
    recurse_dir fs path lst 1 = .ok (lst ++ expand_dir fs path) := by
  obtain ⟨l, hl⟩ := recurse_dir_fuel_total fs h0 (RECURSE_DEPTH_MAX + 2) 1 path (by omega) (by omega)
  have h1 : recurse_dir fs path [] 1 = .ok l := by simpa [recurse_dir] using hl []
  have h2 : expand_dir fs path = l := by simp [expand_dir, h1]
  rw [h2]
  exact hl lst

/-! ### The `path_len` rule -/

theorem strrchr_from_none (c : Nat) :
    ∀ (s : List Nat) (i : Nat) (best : Option Nat), c ∉ s → strrchr_from c s i best = best := by
  intro s
  induction s with
  | nil => intro i best _; rfl
  | cons b s ih =>
    intro i best h
    have hb : b ≠ c := fun e => h (by simp [e])
    simp only [strrchr_from, hb, if_false]
    exact ih (i + 1) best (fun hc => h (by simp [hc]))

/-- Function `strrchr` finds the last occurrence. -/
theorem strrchr_from_last (c : Nat) :
    ∀ (s t : List Nat) (i : Nat) (best : Option Nat), c ∉ t →
      strrchr_from c (s ++ c :: t) i best = some (i + s.length) := by
  intro s
  induction s with
  | nil =>
    intro t i best ht
    simp only [List.nil_append, strrchr_from, if_true, List.length_nil, Nat.add_zero]
    exact strrchr_from_none c t (i + 1) (some i) ht
  | cons b s ih =>
    intro t i best ht
    show strrchr_from c (b :: (s ++ c :: t)) i best = _
    simp only [strrchr_from]
    rw [ih t (i + 1) _ ht]
    simp only [List.length_cons]
    congr 1
    omega

theorem split_at_last (c : Nat) (s : List Nat) (h : c ∈ s) :
    ∃ a t, s = a ++ c :: t ∧ c ∉ t := by
  induction s with
  | nil => cases h
  | cons b s ih =>
    by_cases hs : c ∈ s
    · obtain ⟨a, t, rfl, ht⟩ := ih hs
      exact ⟨b :: a, t, rfl, ht⟩
    · have hb : b = c := by
        rcases List.mem_cons.1 h with h1 | h1
        · exact h1.symm
        · exact absurd h1 hs
      exact ⟨[], s, by simp [hb], hs⟩

theorem indexOf_reverse_last (c : Nat) (a t : List Nat) (ht : c ∉ t) :
    (a ++ c :: t).reverse.indexOf c = t.length := by
  have hr : (a ++ c :: t).reverse = t.reverse ++ c :: a.reverse := by simp
  rw [hr, List.indexOf_append_of_not_mem (by simpa using ht)]
  simp

/-- The block executed for the first entry computes the rule. -/
theorem first_entry_path_len_rule (path : List Nat) :
    first_entry_path_len 0 path 0 = path_len_rule path := by
  unfold first_entry_path_len path_len_rule strrchr
  simp only [if_true]
  by_cases h : PATH_SEP ∈ path
  · obtain ⟨a, t, rfl, ht⟩ := split_at_last PATH_SEP path h
    rw [strrchr_from_last PATH_SEP a t 0 none ht, indexOf_reverse_last PATH_SEP a t ht]
    simp only [Nat.zero_add, List.length_append, List.length_cons]
    by_cases ha : a.length > 0
    · rw [if_pos ha, if_pos (by omega)]
      omega
    · rw [if_neg ha, if_neg (by omega)]
  · rw [strrchr_from_none PATH_SEP path 0 none h]
    have hidx : path.reverse.indexOf PATH_SEP = path.reverse.length :=
      List.indexOf_eq_length.2 (by simpa using h)
    rw [hidx]
    simp

theorem path_len_after_succ (i : Nat) (es : List (List Nat)) (pl : Nat) :
    path_len_after (i + 1) es pl = pl := by
  unfold path_len_after
  cases es with
  | nil => rfl
  | cons e es =>
    cases hd : decode_entry e with
    | none => simp [hd]
    | some path => simp [hd, first_entry_path_len]

theorem get_copied_dirs_files_loop_spec (fs : FS) (h0 : fs.opendir [] = none) :
    ∀ (es : List (List Nat)) (i : Nat) (pre : List Nat) (lst : list2) (pl : Nat),
      plain es → no_bare_scheme es →
      get_copied_dirs_files_loop fs es.length i (pre ++ laid_out es) pre.length lst pl
        = .ok (lst ++ copied_dirs_files fs es, path_len_after i es pl) := by
  intro es
  induction es with
  | nil =>
    intro i pre lst pl _ _
    simp [get_copied_dirs_files_loop, copied_dirs_files, path_len_after]
  | cons e es ih =>
    intro i pre lst pl hpl hnb
    have he : ∀ b ∈ e, b ≠ 0 := fun b hb => (hpl e (by simp) b hb).1
    obtain ⟨hlen, hfail, hok⟩ := entry_step pre e (laid_out es) he (hnb e (by simp))
    have hpl1 : plain es := fun x hx => hpl x (by simp [hx])
    have hnb1 : no_bare_scheme es := fun x hx => hnb x (by simp [hx])
    simp only [List.length_cons, laid_out, get_copied_dirs_files_loop, hlen]
    cases hd : decode_entry e with
    | none =>
      obtain ⟨m1, hm1⟩ := hfail hd
      simp [hm1, copied_dirs_files, hd, path_len_after]
    | some path =>
      obtain ⟨pre1, hpre1, hm1, hcs⟩ := hok path hd
      have hne : EXIT_SUCCESS ≠ EXIT_FAILURE := by decide
      have hpa : path_len_after i (e :: es) pl = first_entry_path_len i path pl := by
        simp [path_len_after, hd]
      simp only [hm1, hne, if_false, hcs, ← hpre1, copied_dirs_files, hd, hpa]
      cases hst : fs.stat path with
      | none => simp [ih (i + 1) pre1 lst _ hpl1 hnb1, path_len_after_succ]
      | some kind =>
        cases kind with
        | reg => simp [ih (i + 1) pre1 _ _ hpl1 hnb1, append, path_len_after_succ]
        | dir =>
          simp [recurse_dir_total fs h0 path lst, ih (i + 1) pre1 _ _ hpl1 hnb1,
            path_len_after_succ]
        | other => simp [ih (i + 1) pre1 lst _ hpl1 hnb1, path_len_after_succ]

/-- Supporting fact for C4 and C5: on every payload with intent `copy` or `cut` whose entries
are lines of a NUL-free text, none of them the bare scheme `file://`, and every file system
on which the empty path is no directory, `get_copied_dirs_files` returns the files the
specification describes and the `path_len` of the first entry. -/
theorem get_copied_dirs_files_spec (xclip : Xclip) (fs : FS) (intent : List Nat)
    (entries : List (List Nat)) (hoff : offers xclip (payload_of intent entries))
    (hint : intent = ascii "copy" ∨ intent = ascii "cut") (hne : entries ≠ [])
    (hpl : plain entries) (hnb : no_bare_scheme entries) (h0 : fs.opendir [] = none) :
    get_copied_dirs_files xclip fs
      = .ok { lst := some (copied_dirs_files fs entries), path_len := first_path_len entries } := by
  have hi := intent_facts intent hint
  have hstr := get_copied_files_as_str_spec xclip intent entries hoff hint
  have hlen : strlen (intent ++ 0 :: (join_lines entries ++ [0])) 0 = .ok intent.length := by
    have := cstr_at [] intent (join_lines entries ++ [0]) (fun b hb => (hi.1 b hb).2)
    simp only [List.nil_append, List.length_nil] at this
    simp [strlen, this]
  have hmem : intent ++ 0 :: (join_lines entries ++ [0])
      = (intent ++ [0]) ++ (join_lines entries ++ [0]) := by simp
  have hl1 : (intent ++ [0]).length = intent.length + 1 := by simp
  have hsplit : split_entries_at (intent ++ 0 :: (join_lines entries ++ [0])) (intent.length + 1)
      = .ok (entries.length - 1, (intent ++ [0]) ++ laid_out entries) := by
    unfold split_entries_at
    rw [hmem, ← hl1, List.drop_left, split_entries_spec entries hne hpl, List.take_left]
  have hcnt : 1 + (entries.length - 1) = entries.length := by
    cases entries with
    | nil => exact absurd rfl hne
    | cons e es => simp; omega
  have hloop := get_copied_dirs_files_loop_spec fs h0 entries 0 (intent ++ [0]) [] 0 hpl hnb
  rw [hl1] at hloop
  have hpl0 : path_len_after 0 entries 0 = first_path_len entries := by
    unfold path_len_after first_path_len
    cases entries with
    | nil => rfl
    | cons e es =>
      simp only [List.head?_cons]
      cases hd : decode_entry e with
      | none => rfl
      | some path => exact first_entry_path_len_rule path
  unfold get_copied_dirs_files
  rw [hstr]
  simp only [hlen, hsplit, hcnt, hloop, List.nil_append, hpl0]

/-! ### Clipboard file lists: examples and the `path_len` of a trailing separator -/

/-- The example of the specification: `a.txt` exists, `missing.txt` does not. -/
theorem get_copied_files_example :
    get_copied_files
        (clipboard_with (ascii "copy\nfile:///tmp/a.txt\nfile:///tmp/missing.txt"))
        (treeFS tmp_tree)
      = .ok (some [ascii "/tmp/a.txt"]) := by
  decide

/-- C3 (result of `get_copied_files`) at the payload `copy`, `file://`,
`file://file:///tmp/a.txt`, where `/tmp/a.txt` is a regular file. The entries denote the
empty path and `file:///tmp/a.txt`, neither of them a regular file, so the result is to be
empty; the code returns `/tmp/a.txt`: decoding the entry `file://` runs over its terminator
and rewrites the next entry in place. -/
theorem get_copied_files_bare_scheme :
    get_copied_files
        (clipboard_with (payload_of (ascii "copy") [ascii "file://", ascii "file://file:///tmp/a.txt"]))
        (treeFS tmp_tree)
      = .ok (some [ascii "/tmp/a.txt"])
    ∧ copied_files (treeFS tmp_tree) [ascii "file://", ascii "file://file:///tmp/a.txt"] = []
    ∧ payload_of (ascii "copy") [ascii "file://", ascii "file://file:///tmp/a.txt"]
        = ascii "copy\nfile://\nfile://file:///tmp/a.txt" := by
  decide

/-- C5 (`path_len` rule) at the payload `cut`, `file://`: the first entry has no separator,
so `path_len` is to be 0; the code reads the byte after the terminator of the payload
buffer, on every file system. -/
theorem get_copied_dirs_files_bare_scheme (fs : FS) :
    get_copied_dirs_files (clipboard_with (payload_of (ascii "cut") [ascii "file://"])) fs
      = .error .oob
    ∧ first_path_len [ascii "file://"] = 0
    ∧ payload_of (ascii "cut") [ascii "file://"] = ascii "cut\nfile://" :=
  ⟨rfl, by decide, by decide⟩

/-- C4 as stated fails: on `cut`, `file:///tmp/sub/` the code does not return a `path_len`
of `len("/tmp/")`. -/
theorem get_copied_dirs_files_trailing_sep_counterexample :
    ¬ ∃ lst, get_copied_dirs_files (clipboard_with (ascii "cut\nfile:///tmp/sub/")) (treeFS tmp_tree)
        = .ok { lst := lst, path_len := (ascii "/tmp/").length } := by
  have h : get_copied_dirs_files (clipboard_with (ascii "cut\nfile:///tmp/sub/")) (treeFS tmp_tree)
      = .ok { lst := some [ascii "/tmp/sub/x.txt", ascii "/tmp/sub/y/z.txt"], path_len := 9 } := by
    decide
  rw [h]
  intro ⟨lst, hl⟩
  have h9 : (9 : Nat) = (ascii "/tmp/").length := by
    injection hl with h1
    injection h1
  revert h9
  decide

theorem path_len_rule_trailing_sep (q : List Nat) (hq : q ≠ []) :
    path_len_rule (q ++ [PATH_SEP]) = (q ++ [PATH_SEP]).length := by
  unfold path_len_rule
  have hlen : 0 < q.length := List.length_pos.2 hq
  simp only [List.reverse_append, List.reverse_cons, List.reverse_nil, List.nil_append,
    List.singleton_append, List.indexOf_cons_self, List.length_append, List.length_cons,
    List.length_nil]
  rw [if_pos (by omega)]
  omega

/-- C4, amended. On the payload `cut`, `file:///tmp/sub/`, where `/tmp/sub` holds `x.txt` and
the directory `y` holding `z.txt`, `get_copied_dirs_files` returns exactly the files
`/tmp/sub/x.txt` and `/tmp/sub/y/z.txt` and a `path_len` of `len("/tmp/sub/") = 9`; more
generally, when the first entry is written with a trailing path separator (after at least
one other character), `path_len` is the length of the whole decoded entry, the directory's
own name and the trailing separator included. Without the trailing separator the payload
`cut`, `file:///tmp/sub` gives `len("/tmp/") = 5`. -/
theorem get_copied_dirs_files_trailing_sep :
    get_copied_dirs_files (clipboard_with (ascii "cut\nfile:///tmp/sub/")) (treeFS tmp_tree)
      = .ok { lst := some [ascii "/tmp/sub/x.txt", ascii "/tmp/sub/y/z.txt"],
              path_len := (ascii "/tmp/sub/").length }
    ∧ get_copied_dirs_files (clipboard_with (ascii "cut\nfile:///tmp/sub")) (treeFS tmp_tree)
      = .ok { lst := some [ascii "/tmp/sub/x.txt", ascii "/tmp/sub/y/z.txt"],
              path_len := (ascii "/tmp/").length }
    ∧ ∀ (xclip : Xclip) (fs : FS) (intent e : List Nat) (es : List (List Nat)) (q : List Nat),
        offers xclip (payload_of intent (e :: es)) →
        (intent = ascii "copy" ∨ intent = ascii "cut") →
        plain (e :: es) → no_bare_scheme (e :: es) → fs.opendir [] = none →
        decode_entry e = some (q ++ [PATH_SEP]) → q ≠ [] →
        get_copied_dirs_files xclip fs
          = .ok { lst := some (copied_dirs_files fs (e :: es)),
                  path_len := (q ++ [PATH_SEP]).length } := by
  refine ⟨by decide, by decide, ?_⟩
  intro xclip fs intent e es q hoff hint hpl hnb h0 hdec hq
  rw [get_copied_dirs_files_spec xclip fs intent (e :: es) hoff hint (by simp) hpl hnb h0]
  simp [first_path_len, hdec, path_len_rule_trailing_sep q hq]

theorem get_copied_dirs_files_trailing_sep_witness :
    offers (clipboard_with (ascii "cut\nfile:///tmp/a/")) (payload_of (ascii "cut") [ascii "file:///tmp/a/"])
      ∧ plain [ascii "file:///tmp/a/"] ∧ no_bare_scheme [ascii "file:///tmp/a/"]
      ∧ decode_entry (ascii "file:///tmp/a/") = some (ascii "/tmp/a" ++ [PATH_SEP])
      ∧ get_copied_dirs_files (clipboard_with (ascii "cut\nfile:///tmp/a/")) (treeFS tmp_tree)
        = .ok { lst := some (copied_dirs_files (treeFS tmp_tree) [ascii "file:///tmp/a/"]),
                path_len := 7 } :=
  ⟨offers_clipboard_with _, by decide, by decide, by decide,
    get_copied_dirs_files_trailing_sep.2.2 (clipboard_with (ascii "cut\nfile:///tmp/a/"))
      (treeFS tmp_tree) (ascii "cut") (ascii "file:///tmp/a/") [] (ascii "/tmp/a")
      (offers_clipboard_with _) (Or.inr rfl) (by decide) (by decide) (by decide) (by decide)
      (by decide)⟩

/-! ### A tree deeper than the bound -/

theorem holds_entries_chain (n : Nat) :
    ∀ (k : Nat) (pre : List Nat), pre.count 100 + k = n →
      holds_entries (chain_fs n) (pre ++ [PATH_SEP]) (chain k) = true := by
  intro k
  induction k with
  | zero =>
    intro pre _
    simp [chain, holds_entries, chain_fs, is_dot, ascii]
  | succ k ih =>
    intro pre hcount
    have hsep : with_sep (pre ++ [PATH_SEP] ++ ascii "d") = (pre ++ [PATH_SEP] ++ ascii "d") ++ [PATH_SEP] := by
      simp [with_sep, ascii, PATH_SEP]
    have hc : (pre ++ [PATH_SEP] ++ ascii "d").count 100 = pre.count 100 + 1 := by
      simp [ascii, PATH_SEP, List.count_append, List.count_cons]
    have ih1 := ih (pre ++ [PATH_SEP] ++ ascii "d") (by omega)
    have hlist : listing (chain_fs n) (pre ++ [PATH_SEP] ++ ascii "d") = some (chain k).names := by
      unfold listing chain_fs
      simp only [hc]
      cases k with
      | zero =>
        have : ¬ pre.count 100 + 1 < n := by omega
        simp only [this, if_false]
        decide
      | succ j =>
        have : pre.count 100 + 1 < n := by omega
        simp only [this, if_true]
        rfl
    have hf : (ascii "f" : List Nat) = [102] := by decide
    have hd : (ascii "d" : List Nat) = [100] := by decide
    have hdotf : is_dot (ascii "f") = false := by decide
    have hdotd : is_dot (ascii "d") = false := by decide
    simp only [chain, holds_entries, hdotf, hdotd, hlist, hsep, ih1, Bool.not_false, Bool.true_and,
      Bool.and_true, decide_True, Bool.and_eq_true, decide_eq_true_eq]
    simp [chain_fs, hf, hd]

theorem visible_files_chain_length :
    ∀ (k d : Nat) (pre : List Nat), d ≤ RECURSE_DEPTH_MAX →
      (visible_files pre (chain k) d).length = min (k + 1) (RECURSE_DEPTH_MAX + 1 - d) := by
  intro k
  induction k with
  | zero =>
    intro d pre hd
    simp only [chain, visible_files, List.length_cons, List.length_nil]
    omega
  | succ k ih =>
    intro d pre hd
    simp only [chain, visible_files, List.length_cons, List.length_append, List.length_nil,
      List.append_nil]
    by_cases hdeep : d + 1 > RECURSE_DEPTH_MAX
    · simp only [hdeep, if_true, List.length_nil]
      omega
    · simp only [hdeep, if_false]
      rw [ih (d + 1) _ (by omega)]
      omega

/-- The example of the specification for depth-bounded expansion, a tree of depth 300 under
the guard 256: started at depth 1, `recurse_dir` returns, and it lists exactly the 256 files
`f` that lie in directories within the bound. -/
theorem recurse_dir_chain_300 :
    ∃ l, recurse_dir (chain_fs 300) (ascii "/r") [] 1 = .ok l ∧ l.length = 256 := by
  have hh : holds_dir (chain_fs 300) (ascii "/r") (chain 300) = true := by
    have h1 : ((ascii "/r" : List Nat) ≠ []) := by decide
    have h2 : listing (chain_fs 300) (ascii "/r") = some (chain 300).names := by decide
    have h3 : with_sep (ascii "/r") = ascii "/r" ++ [PATH_SEP] := by decide
    have h4 := holds_entries_chain 300 300 (ascii "/r") (by decide)
    simp only [holds_dir, h1, h2, h3, h4, ne_eq, not_false_eq_true, decide_True, Bool.and_self]
  have h := recurse_dir_fuel_holds (chain_fs 300) (ascii "/r") (chain 300) [] 1 hh
    (RECURSE_DEPTH_MAX + 2) (Nat.le_refl _)
  change recurse_dir (chain_fs 300) (ascii "/r") [] 1 = _ at h
  have hd : ¬ (1 > RECURSE_DEPTH_MAX) := by decide
  rw [if_neg hd] at h
  refine ⟨_, h, ?_⟩
  simp only [List.nil_append]
  rw [visible_files_chain_length 300 1 _ (by decide)]
  decide

/-! ### Allow-list files without empty or blank lines -/

theorem dropWhile_blank_split (l : List Nat) (h : ∃ b ∈ l, is_blank b = false) :
    ∃ ws c rest, l = ws ++ c :: rest ∧ (∀ b ∈ ws, is_blank b = true) ∧ is_blank c = false
      ∧ l.dropWhile is_blank = c :: rest := by
  induction l with
  | nil => obtain ⟨b, hb, _⟩ := h; cases hb
  | cons a l ih =>
    by_cases ha : is_blank a = true
    · have h1 : ∃ b ∈ l, is_blank b = false := by
        obtain ⟨b, hb, hbb⟩ := h
        rcases List.mem_cons.1 hb with rfl | hb
        · rw [ha] at hbb; cases hbb
        · exact ⟨b, hb, hbb⟩
      obtain ⟨ws, c, rest, hl, hws, hc, hdw⟩ := ih h1
      refine ⟨a :: ws, c, rest, by rw [hl]; rfl, ?_, hc, ?_⟩
      · intro b hb
        rcases List.mem_cons.1 hb with rfl | hb
        · exact ha
        · exact hws b hb
      · simp [List.dropWhile, ha, hdw]
    · have ha2 : is_blank a = false := by simpa using ha
      exact ⟨[], a, l, rfl, by simp, ha2, by simp [List.dropWhile, ha2]⟩

/-- A string with a non-blank byte is blanks, a body with non-blank ends, blanks; the body
is its trimmed form. -/
theorem strip_decompose (l : List Nat) (h : ∃ b ∈ l, is_blank b = false) :
    ∃ ws1 B c ws2, l = ws1 ++ (B ++ c :: ws2)
      ∧ (∀ b ∈ ws1, is_blank b = true) ∧ (∀ b ∈ ws2, is_blank b = true)
      ∧ is_blank c = false ∧ (∀ b, (B ++ [c]).head? = some b → is_blank b = false)
      ∧ strip l = B ++ [c] := by
  obtain ⟨ws1, c1, rest, hl, hws1, hc1, hdw⟩ := dropWhile_blank_split l h
  have hrev : ∃ b ∈ (c1 :: rest).reverse, is_blank b = false := ⟨c1, by simp, hc1⟩
  obtain ⟨w2, c, r2, hl2, hw2, hc, hdw2⟩ := dropWhile_blank_split (c1 :: rest).reverse hrev
  have hbody : c1 :: rest = (r2.reverse ++ [c]) ++ w2.reverse := by
    have := congrArg List.reverse hl2
    simpa using this
  refine ⟨ws1, r2.reverse, c, w2.reverse, ?_, hws1, ?_, hc, ?_, ?_⟩
  · rw [hl, hbody]; simp
  · intro b hb; exact hw2 b (by simpa using hb)
  · intro b hb
    have hh : (c1 :: rest).head? = some b := by
      rw [hbody]
      cases hr : r2.reverse ++ [c] with
      | nil => simp at hr
      | cons x xs => rw [hr] at hb; simpa using hb
    simp only [List.head?_cons, Option.some.injEq] at hh
    rw [← hh]; exact hc1
  · unfold strip
    rw [hdw, hdw2]
    simp

theorem fscanf_line_spec (width : Nat) (l rest : List Nat) (hne : l ≠ [])
    (hlen : l.length ≤ width) (hl : ∀ b ∈ l, b ≠ 10) :
    fscanf_line width (l ++ 10 :: rest) = .line l rest := by
  obtain ⟨a, l1, rfl⟩ : ∃ a l1, l = a :: l1 := by
    cases l with
    | nil => exact absurd rfl hne
    | cons a l1 => exact ⟨a, l1, rfl⟩
  have ha : a ≠ 10 := hl a (by simp)
  have htw : ((a :: l1) ++ 10 :: rest).takeWhile (fun c => c != 10) = a :: l1 := by
    rw [List.takeWhile_append]
    have h1 : (a :: l1).takeWhile (fun c => c != 10) = a :: l1 := by
      rw [List.takeWhile_eq_self_iff]
      intro b hb
      simpa using hl b hb
    rw [h1]
    simp
  show fscanf_line width (a :: (l1 ++ 10 :: rest)) = _
  simp only [fscanf_line, ha, if_false]
  have htw2 : (a :: (l1 ++ 10 :: rest)).takeWhile (fun c => c != 10) = a :: l1 := htw
  rw [htw2, List.take_of_length_le hlen]
  have hdrop : (a :: (l1 ++ 10 :: rest)).drop (a :: l1).length = 10 :: rest := by
    have : a :: (l1 ++ 10 :: rest) = (a :: l1) ++ 10 :: rest := rfl
    rw [this, List.drop_left]
  rw [hdrop]
  rfl

/-- Supporting fact for C8: on every allow-list file whose lines end in a newline, are at
most 511 bytes long and hold at least one non-blank byte (so none is empty or blank),
`get_client_list` returns, for every bound above the number of lines, exactly the trimmed
lines that do not start with `#`, in file order. -/
theorem get_client_list_loop_spec :
    ∀ (lines : List (List Nat)) (fuel : Nat) (client : Option (List Nat)) (lst : list2),
      (∀ l ∈ lines, solid_line l) → lines.length < fuel →
      get_client_list_loop fuel (text_of lines) client lst = .ok (lst ++ allow_list_of lines) := by
  intro lines
  induction lines with
  | nil =>
    intro fuel client lst _ hfuel
    obtain ⟨f, rfl⟩ : ∃ f, fuel = f + 1 := ⟨fuel - 1, by simp at hfuel; omega⟩
    simp [text_of, get_client_list_loop, fscanf_line, allow_list_of]
  | cons l lines ih =>
    intro fuel client lst hsolid hfuel
    obtain ⟨f, rfl⟩ : ∃ f, fuel = f + 1 := ⟨fuel - 1, by simp at hfuel; omega⟩
    obtain ⟨hlen, hplain, hnb⟩ := hsolid l (by simp)
    have hne : l ≠ [] := by
      obtain ⟨b, hb, _⟩ := hnb
      intro h; rw [h] at hb; cases hb
    have hscan := fscanf_line_spec 511 l (text_of lines) hne hlen (fun b hb => (hplain b hb).2)
    have hcs : cstring l = l := by
      have := cstring_append_zero l [] (fun b hb => (hplain b hb).1)
      unfold cstring at this ⊢
      rw [List.takeWhile_eq_self_iff]
      intro b hb
      simpa using (hplain b hb).1
    obtain ⟨ws1, B, c, ws2, hdec, h1, h2, hc, hhead, hstrip⟩ := strip_decompose l hnb
    have hB : ∀ b ∈ B, b ≠ 0 := fun b hb => (hplain b (by rw [hdec]; simp [hb])).1
    have hc0 : c ≠ 0 := (hplain c (by rw [hdec]; simp)).1
    obtain ⟨m, hm, hcm⟩ := trim_spec ws1 B c ws2 h1 h2 hB hc0 hc hhead
    rw [← hdec] at hm
    rw [← hstrip] at hcm
    have ih1 := fun lst1 => ih f (some (strip l)) lst1 (fun x hx => hsolid x (by simp [hx]))
      (by simp at hfuel; omega)
    have hsne : strip l ≠ [] := by rw [hstrip]; simp
    have hlen1 : ¬ (strip l).length < 1 := by
      have := List.length_pos.2 hsne
      omega
    simp only [text_of, get_client_list_loop, hscan, after_scan, hcs, hm, hcm, hlen1, if_false]
    by_cases hhash : (strip l).head? = some 35
    · simp only [hhash, if_true, ih1]
      simp [allow_list_of, hhash]
    · simp only [hhash, if_false, ih1]
      simp [allow_list_of, hhash, hsne, append]

/-- An allow-list file with a comment and blanks around a name, but no empty line. -/
theorem get_client_list_example :
    get_client_list 4 (files_of [("allow", "alice\n# comment\n  bob \n")]) (ascii "allow")
      = .ok (some [ascii "alice", ascii "bob"]) := by
  decide

/-! ### Configuration files without empty lines -/

theorem strchr_from_absent (c : Nat) (hc : c ≠ 0) :
    ∀ (l : List Nat) (p : Nat), c ∉ l → strchr_from c (l ++ [0]) p = none := by
  intro l
  induction l with
  | nil => intro p _; simp [strchr_from, hc.symm]
  | cons b l ih =>
    intro p h
    have hb : b ≠ c := fun e => h (by simp [e])
    show strchr_from c (b :: (l ++ [0])) p = none
    simp only [strchr_from, hb, if_false]
    by_cases hb0 : b = 0
    · simp [hb0]
    · simp only [hb0, if_false]
      exact ih (p + 1) (fun hc => h (by simp [hc]))

theorem split_at_first (c : Nat) (l : List Nat) (h : c ∈ l) :
    l = l.takeWhile (fun b => b != c) ++ c :: (l.dropWhile (fun b => b != c)).drop 1
      ∧ c ∉ l.takeWhile (fun b => b != c) := by
  induction l with
  | nil => cases h
  | cons a l ih =>
    by_cases ha : a = c
    · subst ha
      simp [List.takeWhile, List.dropWhile]
    · have ha2 : (a != c) = true := by simpa using ha
      have hl : c ∈ l := by
        rcases List.mem_cons.1 h with h1 | h1
        · exact absurd h1.symm ha
        · exact h1
      obtain ⟨h1, h2⟩ := ih hl
      constructor
      · simp only [List.takeWhile, List.dropWhile, ha2, List.cons_append]
        rw [← h1]
      · simp only [List.takeWhile, ha2, List.mem_cons, not_or]
        exact ⟨fun e => ha e.symm, h2⟩

/-- A line the specification counts as ignored leaves the record unchanged. -/
theorem parse_line_ignored (cf : Nat) (files : Files) (l : List Nat) (cfg : config)
    (hplain : ∀ b ∈ l, b ≠ 0) (hign : ignored_line l = true) :
    ∃ text, parse_line cf files l cfg = .ok (text, cfg) := by
  unfold ignored_line at hign
  by_cases heq : 61 ∈ l
  · simp only [heq, if_true] at hign
    obtain ⟨hsplit, hk⟩ := split_at_first 61 l heq
    generalize hkdef : l.takeWhile (fun b => b != 61) = k at hsplit hk hign
    generalize hvdef : (l.dropWhile (fun b => b != 61)).drop 1 = v at hsplit hign
    cases hkey : sscanf_s 255 k with
    | none => rw [hkey] at hign; cases hign
    | some key =>
      rw [hkey] at hign
      simp only [Bool.and_eq_true, Bool.not_eq_true', List.any_eq_true] at hign
      obtain ⟨hnot, b, hb, hbb⟩ := hign
      have hk0 : ∀ x ∈ k, x ≠ 61 ∧ x ≠ 0 := by
        intro x hx
        refine ⟨fun e => hk (e ▸ hx), hplain x ?_⟩
        rw [hsplit]; simp [hx]
      have hv0 : ∀ x ∈ v, x ≠ 0 := by
        intro x hx
        apply hplain x
        rw [hsplit]; simp [hx]
      have hchr : strchr_from 61 (l ++ [0]) 0 = some k.length := by
        have := strchr_from_spec 61 k (v ++ [0]) 0 hk0
        rw [hsplit]
        simpa using this
      have hdrop : l.drop (k.length + 1) = v := by
        have : l = (k ++ [61]) ++ v := by rw [hsplit]; simp
        rw [this]
        have h2 : (k ++ [61]).length = k.length + 1 := by simp
        rw [← h2, List.drop_left]
      have htake : l.take k.length = k := by
        rw [hsplit, List.take_left]
      have hnb : ∃ b ∈ v, is_blank b = false := ⟨b, hb, by simpa using hbb⟩
      obtain ⟨ws1, B, c, ws2, hdec, h1, h2, hc, hhead, _⟩ := strip_decompose v hnb
      have hB : ∀ x ∈ B, x ≠ 0 := fun x hx => hv0 x (by rw [hdec]; simp [hx])
      have hc0 : c ≠ 0 := hv0 c (by rw [hdec]; simp)
      obtain ⟨m, hm, _⟩ := trim_spec ws1 B c ws2 h1 h2 hB hc0 hc hhead
      rw [← hdec] at hm
      have hmem : ∀ name ∈ recognised_keys, key ≠ name := by
        intro name hname e
        have : recognised_keys.contains key = true := by
          rw [e]; simpa using hname
        rw [this] at hnot; cases hnot
      have e1 := hmem (ascii "app_port") (by decide)
      have e2 := hmem (ascii "app_port_secure") (by decide)
      have e3 := hmem (ascii "web_port") (by decide)
      have e4 := hmem (ascii "server_key") (by decide)
      have e5 := hmem (ascii "server_cert") (by decide)
      have e6 := hmem (ascii "ca_cert") (by decide)
      have e7 := hmem (ascii "allowed_clients") (by decide)
      refine ⟨k, ?_⟩
      unfold parse_line
      rw [hchr]
      simp only
      rw [hdrop, htake, hm]
      simp only
      rw [hkey]
      simp only [e1, e2, e3, e4, e5, e6, e7, if_false]
  · refine ⟨l, ?_⟩
    unfold parse_line
    rw [strchr_from_absent 61 (by decide) l 0 heq]

theorem conf_fold_ignored (cf : Nat) (files : Files) :
    ∀ (lines : List (List Nat)) (cfg : config), (∀ l ∈ lines, conf_line l) →
      conf_fold files cf (lines.filter (fun l => !ignored_line l)) cfg
        = conf_fold files cf lines cfg := by
  intro lines
  induction lines with
  | nil => intro cfg _; rfl
  | cons l lines ih =>
    intro cfg h
    have ih1 := fun cfg1 => ih cfg1 (fun x hx => h x (by simp [hx]))
    by_cases hign : ignored_line l = true
    · obtain ⟨text, ht⟩ := parse_line_ignored cf files l cfg
        (fun b hb => ((h l (by simp)).2.2 b hb).1) hign
      simp only [List.filter, hign, Bool.not_true, conf_fold, ht, ih1]
    · have hign2 : ignored_line l = false := by simpa using hign
      simp only [List.filter, hign2, Bool.not_false, conf_fold]
      cases parse_line cf files l cfg with
      | error e => rfl
      | ok r => simp only [ih1]

theorem parse_conf_loop_fold (cf : Nat) (files : Files) :
    ∀ (lines : List (List Nat)) (fuel : Nat) (buf : Option (List Nat)) (cfg : config),
      (∀ l ∈ lines, conf_line l) → lines.length < fuel →
      parse_conf_loop files cf fuel (text_of lines) buf cfg = conf_fold files cf lines cfg := by
  intro lines
  induction lines with
  | nil =>
    intro fuel buf cfg _ hfuel
    obtain ⟨f, rfl⟩ : ∃ f, fuel = f + 1 := ⟨fuel - 1, by simp at hfuel; omega⟩
    simp [text_of, parse_conf_loop, fscanf_line, conf_fold]
  | cons l lines ih =>
    intro fuel buf cfg h hfuel
    obtain ⟨f, rfl⟩ : ∃ f, fuel = f + 1 := ⟨fuel - 1, by simp at hfuel; omega⟩
    obtain ⟨hne, hlen, hplain⟩ := h l (by simp)
    have hscan := fscanf_line_spec 2047 l (text_of lines) hne hlen (fun b hb => (hplain b hb).2)
    have hcs : cstring l = l := by
      unfold cstring
      rw [List.takeWhile_eq_self_iff]
      intro b hb
      simpa using (hplain b hb).1
    simp only [text_of, parse_conf_loop, hscan, after_scan, hcs, conf_fold]
    cases parse_line cf files l cfg with
    | error e => rfl
    | ok r =>
      obtain ⟨text1, cfg1⟩ := r
      simp only
      exact ih f (some text1) cfg1 (fun x hx => h x (by simp [hx])) (by simp at hfuel; omega)

/-- Supporting fact for C7: on every configuration file whose lines end in a newline, are
not empty and at most 2047 bytes long, removing the lines without `=` and the lines with an
unrecognised key (and a non-blank value) does not change what `parse_conf` computes, for
every bound above the number of lines. -/
theorem parse_conf_loop_ignores (cf : Nat) (files : Files) (lines : List (List Nat))
    (fuel : Nat) (h : ∀ l ∈ lines, conf_line l) (hfuel : lines.length < fuel) :
    parse_conf_loop files cf fuel (text_of lines) none config_init
      = parse_conf_loop files cf fuel (text_of (lines.filter (fun l => !ignored_line l))) none
          config_init := by
  have hf : ∀ l ∈ lines.filter (fun l => !ignored_line l), conf_line l :=
    fun l hl => h l (List.mem_of_mem_filter hl)
  have hlen : (lines.filter (fun l => !ignored_line l)).length < fuel :=
    Nat.lt_of_le_of_lt (List.length_filter_le _ _) hfuel
  rw [parse_conf_loop_fold cf files lines fuel none config_init h hfuel,
    parse_conf_loop_fold cf files _ fuel none config_init hf hlen,
    conf_fold_ignored cf files lines config_init h]

/-! ### Bounds of `url_decode` -/

/-- On a memory that ends with the terminator of the string, `url_decode` stays inside the
string for every NUL-free string other than the bare scheme `file://`: the run ends with a
status, not with an access outside the memory. -/
theorem url_decode_in_bounds (s : List Nat) (hnz : ∀ b ∈ s, b ≠ 0) (hs : s ≠ ascii "file://") :
    ∃ r, url_decode (s ++ [0]) 0 = .ok r := by
  cases hp : (ascii "file://").isPrefixOf s with
  | false => exact ⟨_, url_decode_no_scheme [] s [] hp⟩
  | true =>
    obtain ⟨R, rfl⟩ := List.isPrefixOf_iff_prefix.1 hp
    have hR : R ≠ [] := by
      intro h; apply hs; rw [h]; simp
    have hRnz : ∀ b ∈ R, b ≠ 0 := fun b hb => hnz b (by simp [hb])
    obtain ⟨hS, hF⟩ := url_decode_spec [] R [] hR hRnz
    cases hD : percent_decode R with
    | none =>
      obtain ⟨m1, hm1⟩ := hF hD
      exact ⟨_, by simpa using hm1⟩
    | some D =>
      have := hS D hD
      exact ⟨_, by simpa using this⟩

/-- The bare scheme is the only NUL-terminated string on which `url_decode` leaves the
string. -/
theorem url_decode_oob_iff (s : List Nat) (hnz : ∀ b ∈ s, b ≠ 0) :
    url_decode (s ++ [0]) 0 = .error .oob ↔ s = ascii "file://" := by
  constructor
  · intro h
    by_contra hs
    obtain ⟨r, hr⟩ := url_decode_in_bounds s hnz hs
    rw [hr] at h
    cases h
  · intro h
    rw [h]
    decide

/-- C11 (bounds safety of `url_decode`) at the string that is exactly `file://`: in a
memory that ends with the terminator of the string the run reads the position after the
terminator; when more memory follows, the scan moves past the terminator and copies what
lies behind it (here `ab`) to the front of the buffer. -/
theorem url_decode_bare_scheme_oob :
    url_decode (ascii "file://" ++ [0]) 0 = .error .oob
    ∧ url_decode (ascii "file://" ++ [0] ++ ascii "ab" ++ [0]) 0
      = .ok (EXIT_SUCCESS, [0] ++ ascii "ab" ++ [0] ++ ascii "://" ++ [0] ++ ascii "ab" ++ [0]) := by
  decide

/-! ### `trim`: idempotence, and strings without a non-blank byte -/

theorem is_blank_zero : is_blank 0 = false := by decide

/-- A string of blanks only (the empty string included): after `*p1 = 0` the pointer `p1`
is stepped below the array. -/
theorem trim_blank_fault (ws X : List Nat) (h : ∀ b ∈ ws, is_blank b = true) :
    trim (ws ++ 0 :: X) = .error .oob := by
  have hskip := trim_skip_spec ws 0 X 0 h is_blank_zero
  have hcopy := trim_copy_spec [] [] ws X ((ws ++ 0 :: X).length + 1) (by simp) (by simp)
  simp only [List.nil_append, List.length_nil, Nat.zero_add, List.append_nil, List.drop_zero,
    Nat.add_zero] at hcopy hskip
  unfold trim
  rw [hskip]
  simp only
  rw [hcopy]
  simp only
  cases ws with
  | nil => simp [store]
  | cons w ws => simp [store]

/-- Function `trim` in place, whatever follows the terminator: the array then starts with
the body and a terminator, and is left as it was when there were no blanks to remove. -/
theorem trim_mem_spec (ws1 B : List Nat) (c : Nat) (ws2 X : List Nat)
    (h1 : ∀ b ∈ ws1, is_blank b = true) (h2 : ∀ b ∈ ws2, is_blank b = true)
    (hB : ∀ b ∈ B, b ≠ 0) (hc0 : c ≠ 0) (hc : is_blank c = false)
    (hhead : ∀ b, (B ++ [c]).head? = some b → is_blank b = false) :
    ∃ Y, trim (ws1 ++ (B ++ c :: ws2) ++ 0 :: X) = .ok ((B ++ [c]) ++ 0 :: Y)
      ∧ (ws1 = [] → ws2 = [] → Y = X) := by
  have hR : ∀ b ∈ B ++ c :: ws2, b ≠ 0 := by
    intro b hb
    simp only [List.mem_append, List.mem_cons] at hb
    rcases hb with hb | hb | hb
    · exact hB b hb
    · rw [hb]; exact hc0
    · exact is_blank_ne_zero b (h2 b hb)
  have hmem : ws1 ++ (B ++ c :: ws2) ++ 0 :: X = ws1 ++ (B ++ c :: ws2 ++ 0 :: X) := by simp
  rw [hmem]
  have hskip : trim_skip (ws1 ++ (B ++ c :: ws2 ++ 0 :: X)) 0 = .ok ws1.length := by
    cases B with
    | nil =>
      have := trim_skip_spec ws1 c (ws2 ++ 0 :: X) 0 h1 hc
      simpa using this
    | cons b B =>
      have hb : is_blank b = false := hhead b (by simp)
      have := trim_skip_spec ws1 b (B ++ c :: ws2 ++ 0 :: X) 0 h1 hb
      simpa using this
  have hcopy := trim_copy_spec (B ++ c :: ws2) [] ws1 X
    ((ws1 ++ (B ++ c :: ws2 ++ 0 :: X)).length + 1) hR (by simp; omega)
  simp only [List.nil_append, List.length_nil, Nat.zero_add] at hcopy
  unfold trim
  rw [hskip]
  simp only
  rw [hcopy]
  simp only
  obtain ⟨z, Z, hZ, hZX⟩ : ∃ z Z,
      (ws1 ++ (B ++ c :: ws2)).drop (B ++ c :: ws2).length ++ 0 :: X = z :: Z
        ∧ (ws1 = [] → Z = X) := by
    cases h : (ws1 ++ (B ++ c :: ws2)).drop (B ++ c :: ws2).length ++ 0 :: X with
    | nil => simp at h
    | cons z Z =>
      refine ⟨z, Z, rfl, ?_⟩
      intro hw
      rw [hw] at h
      simp only [List.nil_append, List.drop_length, List.cons.injEq] at h
      exact h.2.symm
  rw [hZ]
  have hst := store_at (B ++ c :: ws2) z 0 Z
  rw [hst]
  simp only
  have hlen : (B ++ c :: ws2).length = (B.length + ws2.length) + 1 := by simp; omega
  rw [hlen]
  simp only
  have hback := trim_back_spec B c ws2 (0 :: Z) h2 hc
  have hmem2 : (B ++ c :: ws2) ++ 0 :: Z = B ++ c :: (ws2 ++ 0 :: Z) := by simp
  rw [hmem2, hback]
  cases hw2 : ws2.length with
  | zero =>
    refine ⟨Z, by simp, ?_⟩
    intro hw _
    exact hZX hw
  | succ n =>
    refine ⟨List.replicate n 0 ++ 0 :: Z, by simp [List.replicate_succ], ?_⟩
    intro _ hw
    rw [hw] at hw2
    cases hw2

/-- On every string with a non-blank byte `trim` is idempotent: the first call leaves the
trimmed string in the array, and a second call on that array changes nothing. -/
theorem trim_idempotent_solid (s X : List Nat) (hnz : ∀ b ∈ s, b ≠ 0)
    (hnb : ∃ b ∈ s, is_blank b = false) :
    ∃ m1, trim (s ++ 0 :: X) = .ok m1 ∧ cstring m1 = strip s ∧ trim m1 = .ok m1 := by
  obtain ⟨ws1, B, c, ws2, hdec, h1, h2, hc, hhead, hstrip⟩ := strip_decompose s hnb
  have hB : ∀ b ∈ B, b ≠ 0 := fun b hb => hnz b (by rw [hdec]; simp [hb])
  have hc0 : c ≠ 0 := hnz c (by rw [hdec]; simp)
  obtain ⟨Y, hY, _⟩ := trim_mem_spec ws1 B c ws2 X h1 h2 hB hc0 hc hhead
  obtain ⟨Y2, hY2, hsame⟩ := trim_mem_spec [] B c [] Y (by simp) (by simp) hB hc0 hc hhead
  have hY2eq : Y2 = Y := hsame rfl rfl
  refine ⟨(B ++ [c]) ++ 0 :: Y, ?_, ?_, ?_⟩
  · rw [hdec]; exact hY
  · rw [hstrip]
    apply cstring_append_zero
    intro b hb
    simp only [List.mem_append, List.mem_singleton] at hb
    rcases hb with hb | hb
    · exact hB b hb
    · rw [hb]; exact hc0
  · rw [hY2eq] at hY2
    simpa using hY2

/-- A non-empty string with no leading and no trailing blank is left unchanged, and so is
everything behind its terminator. -/
theorem trim_unchanged (s X : List Nat) (hnz : ∀ b ∈ s, b ≠ 0) (hne : s ≠ [])
    (hfirst : ∀ b, s.head? = some b → is_blank b = false)
    (hlast : ∀ b, s.getLast? = some b → is_blank b = false) :
    trim (s ++ 0 :: X) = .ok (s ++ 0 :: X) := by
  have hs : s = s.dropLast ++ [s.getLast hne] := (List.dropLast_append_getLast hne).symm
  have hc : is_blank (s.getLast hne) = false := hlast _ (List.getLast?_eq_getLast s hne)
  have hB : ∀ b ∈ s.dropLast, b ≠ 0 := fun b hb => hnz b (List.mem_of_mem_dropLast hb)
  have hc0 : s.getLast hne ≠ 0 := hnz _ (List.getLast_mem hne)
  have hhead : ∀ b, (s.dropLast ++ [s.getLast hne]).head? = some b → is_blank b = false := by
    intro b hb
    rw [← hs] at hb
    exact hfirst b hb
  obtain ⟨Y, hY, hsame⟩ := trim_mem_spec [] s.dropLast (s.getLast hne) [] X (by simp) (by simp)
    hB hc0 hc hhead
  rw [hsame rfl rfl] at hY
  have hmem : [] ++ (s.dropLast ++ [s.getLast hne]) ++ 0 :: X = s ++ 0 :: X := by
    rw [List.nil_append, ← hs]
  rw [hmem, ← hs] at hY
  exact hY

/-- C12 (`trim` is idempotent, a string of blanks trims to the empty string) at the string
of three spaces and at the empty string: the trimmed form is empty, but `trim` does not
return it; after writing the terminator at the start it steps `p1` below the array and
reads there. -/
theorem trim_blank_string_oob :
    trim (ascii "   " ++ [0]) = .error .oob
    ∧ trim (ascii "" ++ [0]) = .error .oob
    ∧ strip (ascii "   ") = [] ∧ strip (ascii "") = [] := by
  decide

end ClipShare
